import Mathlib

/-!
# CAD_Exchanger: fixed-size vectors and matrices, and the curves built on them

A shallow embedding of `curves/matvec.hpp`, `curves/curves.hpp` and
`curves/curves.cpp`.

* A `std::array<_type, N>` is a function `Fin N → α`; the scalar type `α` stands for
  `double` in exact arithmetic (a commutative ring, ordered where the code compares).
  Where the code compares, `α` may also be `double β`, the numbers of `β` and NaN.
* Every operation returns an `outcome`: `Except.ok` with the value the code produces, or
  the `fault` by which it leaves defined behaviour (an out-of-range element access,
  the builder's exception, a rejected instantiation, a missing `return`, a read of a
  variable that was never assigned).
* A counted `for` loop is `for_range`, its body a state transformer.
* `std::cos`, `std::sin` and `std::rand` are parameters of the functions that call
  them.
-/

set_option autoImplicit false

/-- The ways a call leaves the value-producing behaviour of the program. -/
inductive fault where
  /-- An element of a `std::array` is addressed at or past its end. -/
  | out_of_range
  /-- The `curve_builder::build_exception` thrown by `make_curve`, with its `what`. -/
  | build_exception (what : String)
  /-- A `static_assert` fails or no overload or constructor accepts the call. -/
  | ill_formed (what : String)
  /-- Control reaches the end of a value-returning function without a `return`. -/
  | no_return
  /-- A variable declared without an initialiser is read before it is assigned. -/
  | indeterminate_value
  deriving DecidableEq, Repr

/-- The outcome of a call: a value or a fault. -/
abbrev outcome (β : Type) : Type := Except fault β

/-- Reading a local variable: `none` is a variable declared without an initialiser and
not assigned since. -/
def read_local {β : Type} : Option β → outcome β
  | some x => .ok x
  | none => .error .indeterminate_value

/-- The loop `for (std::size_t i = 0; i < n; ++i) body`, threading the state the body
updates; a fault in an iteration ends the loop with that fault. -/
def for_range {σ : Type} : Nat → (Nat → σ → outcome σ) → σ → outcome σ
  | 0, _, s => .ok s
  | n + 1, body, s => (for_range n body s).bind (body n)

/-! ## Values of type `double` under comparison -/

/-- A value of type `double` as the comparisons see it: a number, or NaN. -/
inductive double (β : Type) where
  | number (x : β)
  | NaN

namespace double

variable {β : Type}

/-- The literal `0.0`. -/
instance [Zero β] : Zero (double β) := ⟨number 0⟩

/-- The literal `1.0`. -/
instance [One β] : One (double β) := ⟨number 1⟩

/-- The operator `<=` of `double`: the order of the numbers, and `false` as soon as an
operand is NaN. -/
def le [LE β] : double β → double β → Prop
  | number a, number b => a ≤ b
  | _, _ => False

/-- The operator `<` of `double`: the order of the numbers, and `false` as soon as an
operand is NaN. -/
def lt [LT β] : double β → double β → Prop
  | number a, number b => a < b
  | _, _ => False

instance [LE β] : LE (double β) := ⟨le⟩

instance [LT β] : LT (double β) := ⟨lt⟩

/-- The operator `<=` computes its answer. -/
instance decidable_le [LE β] [DecidableRel ((· ≤ ·) : β → β → Prop)] :
    DecidableRel ((· ≤ ·) : double β → double β → Prop)
  | number a, number b => inferInstanceAs (Decidable (a ≤ b))
  | number _, NaN => isFalse (fun h => h)
  | NaN, number _ => isFalse (fun h => h)
  | NaN, NaN => isFalse (fun h => h)

end double

namespace mv

/-! ## `mv::vector<_type, _dim>` -/

/-- The class `vector<_type, _dim>`: its only member is `std::array<_type, _dim> _data`. -/
structure vector (α : Type) (_dim : Nat) where
  _data : Fin _dim → α

namespace vector

variable {α : Type} {_dim : Nat}

/-- Reading `_data[index]`. -/
def get (v : vector α _dim) (index : Nat) : outcome α :=
  if h : index < _dim then .ok (v._data ⟨index, h⟩) else .error .out_of_range

/-- Writing `_data[index] = x`. -/
def set (v : vector α _dim) (index : Nat) (x : α) : outcome (vector α _dim) :=
  if h : index < _dim then .ok ⟨Function.update v._data ⟨index, h⟩ x⟩
  else .error .out_of_range

/-- The default constructor `vector() : _data()`: every element value-initialised. -/
def ctor [Zero α] : vector α _dim := ⟨fun _ => 0⟩

/-- The constructor `explicit vector(const _type& value)`: the iterator loop assigns
`value` to each of the `_dim` elements in turn (the storage it starts from is never
read; it is taken zeroed). -/
def ctor_value [Zero α] (value : α) : outcome (vector α _dim) :=
  for_range _dim (fun i v => v.set i value) ctor

/-- The member `_fill(index, first, other...)` and its one-argument overload
`_fill(index, last)`, on the argument pack as a list. -/
def _fill : Nat → List α → vector α _dim → outcome (vector α _dim)
  | _, [], _ => .error (.ill_formed "no matching function for call to _fill")
  | index, [last], v => v.set index last
  | index, first :: other, v =>
    if other.length < _dim then (v.set index first).bind (_fill (index + 1) other)
    else .error (.ill_formed "list overflow")

/-- The variadic constructor `vector(const _args&... values) : _data()`, called with at
least two values or with one value that is not a `_type`. -/
def ctor_values [Zero α] (values : List α) : outcome (vector α _dim) :=
  _fill 0 values ctor

/-- The member `_hash`: the index an axis name stands for, `_data.size()` for any
other key. -/
def _hash (_ : vector α _dim) (key : String) : Nat :=
  if key = "x" then 0
  else if key = "y" then 1
  else if key = "z" then 2
  else if key = "w" then 3
  else _dim

/-- Reading through `operator[](const std::string& key)`: `_data[_hash(key)]`. -/
def key (v : vector α _dim) (k : String) : outcome α := v.get (v._hash k)

/-- Writing through `operator[](const std::string& key)`. -/
def set_key (v : vector α _dim) (k : String) (x : α) : outcome (vector α _dim) :=
  v.set (v._hash k) x

/-- The axis names of a vector with the index each one stands for: `x`, `y`, `z`, `w`
for the indices 0 to 3. -/
def axis_names : List (String × Nat) := [("x", 0), ("y", 1), ("z", 2), ("w", 3)]

/-- The element a read of `v[i]` observes, `0` when the read is out of range. -/
def entry [Zero α] (v : vector α _dim) (i : Nat) : α :=
  if h : i < _dim then v._data ⟨i, h⟩ else 0

end vector

/-! ## `mv::matrix<_type, _row, _column>` -/

/-- The class `matrix<_type, _row, _column>`: its only member is
`std::array<_type, _row * _column> _data`. -/
structure matrix (α : Type) (_row _column : Nat) where
  _data : Fin (_row * _column) → α

namespace matrix

variable {α : Type} {_row _column : Nat}

/-- Reading `_data[index]`. -/
def get (m : matrix α _row _column) (index : Nat) : outcome α :=
  if h : index < _row * _column then .ok (m._data ⟨index, h⟩) else .error .out_of_range

/-- Writing `_data[index] = x`. -/
def set (m : matrix α _row _column) (index : Nat) (x : α) :
    outcome (matrix α _row _column) :=
  if h : index < _row * _column then .ok ⟨Function.update m._data ⟨index, h⟩ x⟩
  else .error .out_of_range

/-- Reading `mat[i][j]`: `operator[](i)` is the pointer `_data.data() + i * _column`,
indexed by `j`. -/
def get_at (m : matrix α _row _column) (i j : Nat) : outcome α :=
  m.get (i * _column + j)

/-- Writing `mat[i][j] = x`. -/
def set_at (m : matrix α _row _column) (i j : Nat) (x : α) :
    outcome (matrix α _row _column) :=
  m.set (i * _column + j) x

/-- The storage after `_data()`: every element value-initialised. -/
def zeroed [Zero α] : matrix α _row _column := ⟨fun _ => 0⟩

/-- The default constructor `matrix() : _data()`: for a square matrix the loop then
writes `1` at `_data[i + i * _column]` for each `i < _row`. -/
def ctor [Zero α] [One α] : outcome (matrix α _row _column) :=
  if _row = _column then for_range _row (fun i m => m.set (i + i * _column) 1) zeroed
  else .ok zeroed

/-- The constructor `explicit matrix(const _type& value) : _data()`: the diagonal is
filled for a square matrix, every element otherwise. -/
def ctor_value [Zero α] (value : α) : outcome (matrix α _row _column) :=
  if _row = _column then
    for_range _row (fun i m => m.set (i + i * _column) value) zeroed
  else for_range (_row * _column) (fun i m => m.set i value) zeroed

/-- The member `_fill(index, first, other...)` and its one-argument overload
`_fill(index, last)`, on the argument pack as a list. -/
def _fill : Nat → List α → matrix α _row _column → outcome (matrix α _row _column)
  | _, [], _ => .error (.ill_formed "no matching function for call to _fill")
  | index, [last], m => m.set index last
  | index, first :: other, m =>
    if other.length < _row * _column then
      (m.set index first).bind (_fill (index + 1) other)
    else .error (.ill_formed "list overflow")

/-- The variadic constructor `matrix(const _args&... values) : _data()`, called with at
least two values or with one value that is not a `_type`. -/
def ctor_values [Zero α] (values : List α) : outcome (matrix α _row _column) :=
  _fill 0 values zeroed

/-- The member `_hash`: the storage index a one- or two-letter key stands for,
`_data.size()` for any other key. -/
def _hash (_ : matrix α _row _column) (key : String) : Nat :=
  if key = "x" then 0
  else if key = "xy" then 1
  else if key = "xz" then 2
  else if key = "xw" then 3
  else if key = "yx" then 0 + _column
  else if key = "y" then 1 + _column
  else if key = "yz" then 2 + _column
  else if key = "yw" then 3 + _column
  else if key = "zx" then 0 + 2 * _column
  else if key = "zy" then 1 + 2 * _column
  else if key = "z" then 2 + 2 * _column
  else if key = "zw" then 3 + 2 * _column
  else if key = "wx" then 0 + 3 * _column
  else if key = "wy" then 1 + 3 * _column
  else if key = "wz" then 2 + 3 * _column
  else if key = "w" then 3 + 3 * _column
  else _row * _column

/-- Reading through `operator[](const std::string& key)`: `_data[_hash(key)]`. -/
def key (m : matrix α _row _column) (k : String) : outcome α := m.get (m._hash k)

/-- Writing through `operator[](const std::string& key)`. -/
def set_key (m : matrix α _row _column) (k : String) (x : α) :
    outcome (matrix α _row _column) :=
  m.set (m._hash k) x

/-- The sixteen keys of a matrix with the pair (row, column) each one names: one letter
for a diagonal element, two letters for the row and then the column, the letters `x`,
`y`, `z`, `w` standing for 0 to 3. -/
def axis_keys : List (String × Nat × Nat) :=
  [("x", 0, 0), ("xy", 0, 1), ("xz", 0, 2), ("xw", 0, 3),
   ("yx", 1, 0), ("y", 1, 1), ("yz", 1, 2), ("yw", 1, 3),
   ("zx", 2, 0), ("zy", 2, 1), ("z", 2, 2), ("zw", 2, 3),
   ("wx", 3, 0), ("wy", 3, 1), ("wz", 3, 2), ("w", 3, 3)]

/-- The element a read of `mat[i][j]` observes, `0` when the read is out of range. -/
def entry [Zero α] (m : matrix α _row _column) (i j : Nat) : α :=
  if h : i * _column + j < _row * _column then m._data ⟨i * _column + j, h⟩ else 0

/-- The matrix in the mathematical sense that the storage holds: row `i`, column `j`
is the element `mat[i][j]`. -/
def to_Matrix [Zero α] (m : matrix α _row _column) :
    Matrix (Fin _row) (Fin _column) α :=
  fun i j => m.entry i.val j.val

end matrix

/-! ## Free operations of `matvec.hpp` -/

section operations

variable {α : Type}

/-- The product `operator*(const matrix<_row, _column>& A, const matrix<_column,
_other_column>& B)`. Its return type is `matrix<_row, _column>` while the local it
returns is a `matrix<_row, _other_column>`, so the instantiations that compile have
`_other_column = _column`; `result(0.0)` is the single-value constructor. -/
def mul [Semiring α] {_row _column : Nat} (A : matrix α _row _column)
    (B : matrix α _column _column) : outcome (matrix α _row _column) := do
  let result ← matrix.ctor_value (0 : α)
  for_range _row (fun i result =>
    for_range _column (fun j result =>
      for_range _column (fun k result => do
        let r ← result.get_at i j
        let a ← A.get_at i k
        let b ← B.get_at k j
        result.set_at i j (r + a * b)) result) result) result

/-- The product `operator*(const matrix<_row, _column>& A, const vector<_column>& v)`:
the result is declared a `vector<_column>`, built by `result(0.0)`, and the inner loop
updates `result[i]` for `i < _row`. -/
def mul_vec [Semiring α] {_row _column : Nat} (A : matrix α _row _column)
    (v : vector α _column) : outcome (vector α _column) := do
  let result ← vector.ctor_value (0 : α)
  for_range _column (fun j result =>
    for_range _row (fun i result => do
      let r ← result.get i
      let x ← v.get j
      let a ← A.get_at i j
      result.set i (r + x * a)) result) result

/-- The block of `det` that declares `minor` (default-constructed) and fills it for
the column `k`: for every row `i` the flag `column` starts `false`, is raised once `j`
reaches `k`, and selects `mat[i + 1][j + 1]` over `mat[i + 1][j]`. -/
def det_minor [CommRing α] {n c : Nat} (mat : matrix α (n + 3) c) (k : Nat) :
    outcome (matrix α (n + 2) (c - 1)) := do
  let minor ← (matrix.ctor : outcome (matrix α (n + 2) (c - 1)))
  for_range (n + 3 - 1) (fun i minor => do
    let filled ← for_range (n + 3 - 1)
      (fun j (state : matrix α (n + 2) (c - 1) × Bool) => do
        let column := if j = k then true else state.2
        let x ← if column then mat.get_at (i + 1) (j + 1) else mat.get_at (i + 1) j
        let minor ← state.1.set_at i j x
        pure (minor, column)) (minor, false)
    pure filled.1) minor

/-- The function `det`: `0` for a matrix that is not square, `mat[0][0]` for `n <= 1`,
the keyed formula for `n == 2`, and for larger `n` the loop over `k` that accumulates
`pow(-1.0, k) * det(minor) * mat[0][k]` into `result`, which starts at `0.0`. -/
def det [CommRing α] :
    (_current_row _current_column : Nat) → matrix α _current_row _current_column → outcome α
  | 0, c, mat => if 0 ≠ c then .ok 0 else mat.get_at 0 0
  | 1, c, mat => if 1 ≠ c then .ok 0 else mat.get_at 0 0
  | 2, c, mat =>
    if 2 ≠ c then .ok 0
    else do
      let x ← mat.key "x"
      let y ← mat.key "y"
      let xy ← mat.key "xy"
      let yx ← mat.key "yx"
      pure (x * y - xy * yx)
  | n + 3, c, mat =>
    if n + 3 ≠ c then .ok 0
    else
      for_range (n + 3) (fun k result => do
        let minor ← det_minor mat k
        let d ← det (n + 2) (c - 1) minor
        let m0k ← mat.get_at 0 k
        pure (result + (-1) ^ k * d * m0k)) 0

/-- The sum `operator+(const vector& a, const vector& b)`: `result` is
default-constructed and `result[i] = a[i] + b[i]` for each `i < _dim`. -/
def add [Add α] [Zero α] {_dim : Nat} (a b : vector α _dim) : outcome (vector α _dim) :=
  for_range _dim (fun i result => do
    let x ← a.get i
    let y ← b.get i
    result.set i (x + y)) vector.ctor

/-- The function `dot`: `double result;` has no initialiser, and every iteration of the
loop adds `a[i] * b[i]` into it. -/
def dot [Semiring α] {_dim : Nat} (a b : vector α _dim) : outcome α := do
  let result : Option α := none
  let result ← for_range _dim (fun i result => do
    let x ← a.get i
    let y ← b.get i
    let r ← read_local result
    pure (some (r + x * y))) result
  read_local result

/-- The function `cross`: three 2 by 2 matrices built from the keyed components of `a`
and `b`, and the vector of their determinants, the middle one negated. -/
def cross [CommRing α] (a b : vector α 3) : outcome (vector α 3) := do
  let a_x ← a.key "x"
  let a_y ← a.key "y"
  let a_z ← a.key "z"
  let b_x ← b.key "x"
  let b_y ← b.key "y"
  let b_z ← b.key "z"
  let mat_i ← (matrix.ctor_values [a_y, b_y, a_z, b_z] : outcome (matrix α 2 2))
  let mat_j ← (matrix.ctor_values [a_x, b_x, a_z, b_z] : outcome (matrix α 2 2))
  let mat_k ← (matrix.ctor_values [a_x, b_x, a_y, b_y] : outcome (matrix α 2 2))
  let d_i ← det 2 2 mat_i
  let d_j ← det 2 2 mat_j
  let d_k ← det 2 2 mat_k
  vector.ctor_values [d_i, -d_j, d_k]

/-- The function `high(const vector<_type, _dim>& v, const _type& lost)`: `result` has
one more element, is default-constructed, receives `v[i]` at each `i < _dim` and `lost`
at `_dim`. -/
def high [Zero α] {_dim : Nat} (v : vector α _dim) (lost : α) :
    outcome (vector α (_dim + 1)) := do
  let result ← for_range _dim (fun i (result : vector α (_dim + 1)) => do
    let x ← v.get i
    result.set i x) vector.ctor
  result.set _dim lost

/-- The function `transpose`: `result` is default-constructed and
`result[i][j] = M[j][i]` for all `i`, `j` below `_dim`. -/
def transpose [Zero α] [One α] {_dim : Nat} (M : matrix α _dim _dim) :
    outcome (matrix α _dim _dim) := do
  let result ← (matrix.ctor : outcome (matrix α _dim _dim))
  for_range _dim (fun i result =>
    for_range _dim (fun j (result : matrix α _dim _dim) => do
      let x ← M.get_at j i
      result.set_at i j x) result) result

/-- The name `tranpose` that `change` calls. No function of that name is declared in
the repository, so the call names nothing in any instantiation of `change`. -/
def tranpose {_dim : Nat} (_ : matrix α _dim _dim) : outcome (matrix α _dim _dim) :=
  .error (.ill_formed "tranpose was not declared in this scope")

/-- The function `change`, `return tranpose(basis) * M * basis;`, on square matrices
(the products need `_row = _column`). -/
def change [Semiring α] {_dim : Nat} (M basis : matrix α _dim _dim) :
    outcome (matrix α _dim _dim) := do
  let t ← tranpose basis
  let tM ← mul t M
  mul tM basis

/-- The function `rotate_euler`: the three matrices `psi`, `theta`, `gamma` built from the
keyed angles, `result = gamma * theta * psi`, and `transpose(result)` returned. -/
def rotate_euler [CommRing α] (cos sin : α → α) (angles : vector α 3) :
    outcome (matrix α 3 3) := do
  let a_x ← angles.key "x"
  let a_y ← angles.key "y"
  let a_z ← angles.key "z"
  let psi ← (matrix.ctor_values
    [cos a_x, 0, -sin a_x,
     0, 1, 0,
     sin a_x, 0, cos a_x] : outcome (matrix α 3 3))
  let theta ← (matrix.ctor_values
    [cos a_y, sin a_y, 0,
     -sin a_y, cos a_y, 0,
     0, 0, 1] : outcome (matrix α 3 3))
  let gamma ← (matrix.ctor_values
    [1, 0, 0,
     0, cos a_z, sin a_z,
     0, -sin a_z, cos a_z] : outcome (matrix α 3 3))
  let gamma_theta ← mul gamma theta
  let result ← mul gamma_theta psi
  transpose result

/-- The function `move`: the 4 by 4 matrix listed row by row, the keyed components of
`radius` in the last column. -/
def move [Zero α] [One α] (radius : vector α 3) : outcome (matrix α 4 4) := do
  let r_x ← radius.key "x"
  let r_y ← radius.key "y"
  let r_z ← radius.key "z"
  matrix.ctor_values
    [1, 0, 0, r_x,
     0, 1, 0, r_y,
     0, 0, 1, r_z,
     0, 0, 0, 1]

/-- The function `length`: `result` starts at `0.0`, the loop adds `vec[i] * vec[i]` for
each `i < _dim`, and `std::sqrt(result)` is returned; `sqrt` stands for `std::sqrt`. -/
def length [Semiring α] (sqrt : α → α) {_dim : Nat} (vec : vector α _dim) : outcome α := do
  let result ← for_range _dim (fun i (result : α) => do
    let x ← vec.get i
    pure (result + x * x)) 0
  pure (sqrt result)

/-- The function `normalize`: `result` is default-constructed, `len = length(vec)`, and
`result[i] = vec[i] / len` for each `i < _dim`, with no test on `len`. The division of
the scalar type is `div`; its value at a zero divisor is left open (a NaN or an infinity
for `double`). -/
def normalize [Semiring α] (sqrt : α → α) (div : α → α → α) {_dim : Nat}
    (vec : vector α _dim) : outcome (vector α _dim) := do
  let len ← length sqrt vec
  for_range _dim (fun i (result : vector α _dim) => do
    let x ← vec.get i
    result.set i (div x len)) vector.ctor

end operations

end mv

/-! ## `curves.hpp` and `curves.cpp` -/

namespace curves

open mv

variable {α : Type}

/-- The alias `using curve_point = mv::vec3`. -/
abbrev curve_point (α : Type) : Type := vector α 3

/-- An object behind a `curve_ptr`: one of the three classes derived from
`interface_curve`, with its private shape parameters and the inherited `_lin_op`. -/
inductive interface_curve (α : Type) where
  | circle (_R : α) (_lin_op : matrix α 3 3)
  | ellipse (_Rx _Ry : α) (_lin_op : matrix α 3 3)
  | helix (_R _h : α) (_lin_op : matrix α 3 3)

/-- The shape parameters a curve stores, in declaration order. -/
def interface_curve.shape_parameters : interface_curve α → List α
  | .circle _R _ => [_R]
  | .ellipse _Rx _Ry _ => [_Rx, _Ry]
  | .helix _R _h _ => [_R, _h]

/-- The member `_lin_op` of the base class. -/
def interface_curve._lin_op : interface_curve α → matrix α 3 3
  | .circle _ _lin_op => _lin_op
  | .ellipse _ _ _lin_op => _lin_op
  | .helix _ _ _lin_op => _lin_op

/-- The enumeration `curve_t`. -/
inductive curve_t where
  | CIRCLE
  | ELLIPSE
  | HELIX
  deriving DecidableEq, Repr

/-- The argument `linear_operator` of the three constructors: the matrix passed, or
the default argument `mv::mat3()` evaluated at the call. -/
def linear_operator_or_default [Zero α] [One α] :
    Option (matrix α 3 3) → outcome (matrix α 3 3)
  | some linear_operator => .ok linear_operator
  | none => matrix.ctor

/-- The constructor `circle::circle(double R, const mv::mat3& linear_operator)`. -/
def circle.ctor [Zero α] [One α] (R : α) (linear_operator : Option (matrix α 3 3)) :
    outcome (interface_curve α) := do
  let _lin_op ← linear_operator_or_default linear_operator
  pure (.circle R _lin_op)

/-- The constructor `ellipse::ellipse(double Rx, double Ry, const mv::mat3&
linear_operator)`. -/
def ellipse.ctor [Zero α] [One α] (Rx Ry : α) (linear_operator : Option (matrix α 3 3)) :
    outcome (interface_curve α) := do
  let _lin_op ← linear_operator_or_default linear_operator
  pure (.ellipse Rx Ry _lin_op)

/-- The constructor `helix::helix(double R, double h, const mv::mat3&
linear_operator)`. -/
def helix.ctor [Zero α] [One α] (R h : α) (linear_operator : Option (matrix α 3 3)) :
    outcome (interface_curve α) := do
  let _lin_op ← linear_operator_or_default linear_operator
  pure (.helix R h _lin_op)

/-- The virtual `get_value(double t)` of the three classes, `std::cos` and `std::sin`
being `cos` and `sin`. -/
def get_value [Ring α] (cos sin : α → α) : interface_curve α → α → outcome (curve_point α)
  | .circle _R _lin_op, t => do
    let p ← vector.ctor_values [_R * cos t, _R * sin t, 0]
    mul_vec _lin_op p
  | .ellipse _Rx _Ry _lin_op, t => do
    let p ← vector.ctor_values [_Rx * cos t, _Ry * sin t, 0]
    mul_vec _lin_op p
  | .helix _R _h _lin_op, t => do
    let p ← vector.ctor_values [_R * cos t, _R * sin t, _h * t]
    mul_vec _lin_op p

/-- The virtual `get_d_dt_value(double t)` of the three classes. -/
def get_d_dt_value [Ring α] (cos sin : α → α) :
    interface_curve α → α → outcome (curve_point α)
  | .circle _R _lin_op, t => do
    let p ← vector.ctor_values [_R * (-sin t), _R * cos t, 0]
    mul_vec _lin_op p
  | .ellipse _Rx _Ry _lin_op, t => do
    let p ← vector.ctor_values [_Rx * (-sin t), _Ry * cos t, 0]
    mul_vec _lin_op p
  | .helix _R _h _lin_op, t => do
    let p ← vector.ctor_values [_R * (-sin t), _R * cos t, _h]
    mul_vec _lin_op p

namespace curve_builder

/-- The three overloads of `_valid` on the pack `construct_data...`: the leading
`double` arguments, then the linear operator when one is passed. Each `double` must
pass the test `>= 0.0` of the scalar type, which a NaN fails; `_valid(const mv::mat3&)`
and `_valid()` return `true`. -/
def _valid [Zero α] [LE α] [DecidableRel ((· ≤ ·) : α → α → Prop)] :
    List α → Option (matrix α 3 3) → Bool
  | arg :: data, linear_operator => decide (arg ≥ 0) && _valid data linear_operator
  | [], some _ => true
  | [], none => true

/-- The template `make_curve<curve>(construct_data...)` on a pack of numbers followed or
not by a linear operator. The pack is validated first. The constructor of the variant
then takes its shape parameters and the operator; a number in the place of the operator
is converted to `mv::mat3` by the variadic constructor of `matrix`, which is not
`explicit`. Any other pack matches no constructor. -/
def make_curve [Zero α] [One α] [LE α] [DecidableRel ((· ≤ ·) : α → α → Prop)]
    (curve : curve_t) (construct_data : List α)
    (linear_operator : Option (matrix α 3 3)) : outcome (interface_curve α) :=
  match curve, construct_data, linear_operator with
  | .CIRCLE, [R], linear_operator =>
    if !_valid [R] linear_operator then
      .error (.build_exception "Curve is not physically correct")
    else circle.ctor R linear_operator
  | .CIRCLE, [R, value], none =>
    if !_valid [R, value] none then
      .error (.build_exception "Curve is not physically correct")
    else do
      let linear_operator ← matrix.ctor_values [value]
      circle.ctor R (some linear_operator)
  | .ELLIPSE, [Rx, Ry], linear_operator =>
    if !_valid [Rx, Ry] linear_operator then
      .error (.build_exception "Curve is not physically correct")
    else ellipse.ctor Rx Ry linear_operator
  | .ELLIPSE, [Rx, Ry, value], none =>
    if !_valid [Rx, Ry, value] none then
      .error (.build_exception "Curve is not physically correct")
    else do
      let linear_operator ← matrix.ctor_values [value]
      ellipse.ctor Rx Ry (some linear_operator)
  | .HELIX, [R, h], linear_operator =>
    if !_valid [R, h] linear_operator then
      .error (.build_exception "Curve is not physically correct")
    else helix.ctor R h linear_operator
  | .HELIX, [R, h, value], none =>
    if !_valid [R, h, value] none then
      .error (.build_exception "Curve is not physically correct")
    else do
      let linear_operator ← matrix.ctor_values [value]
      helix.ctor R h (some linear_operator)
  | _, _, _ => .error (.ill_formed "no matching constructor")

/-- The macro `RAND_GEN`, `std::rand() % 50 + 1`, at the call of `std::rand()` numbered
`calls` of the sequence `rand`. -/
def RAND_GEN (rand : Nat → Nat) (calls : Nat) : Nat := rand calls % 50 + 1

/-- The function `make_random_curve`; `rand` is the sequence `std::rand()` returns and
`calls` the number of calls made before, returned updated. Constructor arguments are
drawn left to right. -/
def make_random_curve [Ring α] (rand : Nat → Nat) (calls : Nat) :
    outcome (interface_curve α × Nat) :=
  match rand calls % 3 with
  | 0 => do
    let c ← circle.ctor (RAND_GEN rand (calls + 1) : α) none
    pure (c, calls + 2)
  | 1 => do
    let c ← ellipse.ctor (RAND_GEN rand (calls + 1) : α) (RAND_GEN rand (calls + 2) : α) none
    pure (c, calls + 3)
  | 2 => do
    let c ← helix.ctor (RAND_GEN rand (calls + 1) : α) (RAND_GEN rand (calls + 2) : α) none
    pure (c, calls + 3)
  | _ => .error .no_return

/-- The loop of `make_random_curve_with_random_linear_operator` that assigns `RAND_GEN`
through the iterator from `begin()` to `end()` of a default-constructed `mv::mat3`. -/
def random_linear_operator [Ring α] (rand : Nat → Nat) (calls : Nat) :
    outcome (matrix α 3 3 × Nat) := do
  let m ← (matrix.ctor : outcome (matrix α 3 3))
  for_range (3 * 3) (fun i (state : matrix α 3 3 × Nat) => do
    let m ← state.1.set i (RAND_GEN rand state.2 : α)
    pure (m, state.2 + 1)) (m, calls)

/-- The function `make_random_curve_with_random_linear_operator`. -/
def make_random_curve_with_random_linear_operator [Ring α] (rand : Nat → Nat)
    (calls : Nat) : outcome (interface_curve α × Nat) := do
  let curve := rand calls % 3
  let filled ← random_linear_operator rand (calls + 1)
  let calls := filled.2
  match curve with
  | 0 => do
    let c ← circle.ctor (RAND_GEN rand calls : α) (some filled.1)
    pure (c, calls + 1)
  | 1 => do
    let c ← ellipse.ctor (RAND_GEN rand calls : α) (RAND_GEN rand (calls + 1) : α)
      (some filled.1)
    pure (c, calls + 2)
  | 2 => do
    let c ← helix.ctor (RAND_GEN rand calls : α) (RAND_GEN rand (calls + 1) : α)
      (some filled.1)
    pure (c, calls + 2)
  | _ => .error .no_return

end curve_builder

end curves

/-! # Verification -/

/-! ## Loops -/

section loops

variable {σ : Type}

theorem for_range_succ (n : Nat) (body : Nat → σ → outcome σ) (s : σ) :
    for_range (n + 1) body s = (for_range n body s).bind (body n) := rfl

/-- The invariant rule for `for_range`: a predicate that holds before the loop and is
carried by every iteration, each of which returns, holds of the state the loop returns. -/
theorem for_range_invariant (P : Nat → σ → Prop) (n : Nat) (body : Nat → σ → outcome σ)
    (s : σ) (h0 : P 0 s)
    (hstep : ∀ i, i < n → ∀ t, P i t → ∃ u, body i t = .ok u ∧ P (i + 1) u) :
    ∃ t, for_range n body s = .ok t ∧ P n t := by
  induction n with
  | zero => exact ⟨s, rfl, h0⟩
  | succ n ih =>
    obtain ⟨t, ht, hP⟩ := ih (fun i hi => hstep i (Nat.lt_succ_of_lt hi))
    obtain ⟨u, hu, hQ⟩ := hstep n (Nat.lt_succ_self n) t hP
    exact ⟨u, by rw [for_range_succ, ht]; exact hu, hQ⟩

end loops

/-! ## Row-major indexing -/

theorem flat_index_lt {r c i j : Nat} (hi : i < r) (hj : j < c) : i * c + j < r * c :=
  calc i * c + j < i * c + c := Nat.add_lt_add_left hj _
    _ = (i + 1) * c := (Nat.succ_mul i c).symm
    _ ≤ r * c := Nat.mul_le_mul_right c hi

theorem flat_index_inj {c i j k l : Nat} (hj : j < c) (hl : l < c)
    (h : i * c + j = k * c + l) : i = k ∧ j = l := by
  have hc : 0 < c := Nat.lt_of_le_of_lt (Nat.zero_le j) hj
  have h1 : (i * c + j) / c = i := by
    rw [Nat.mul_comm, Nat.mul_add_div hc, Nat.div_eq_of_lt hj, Nat.add_zero]
  have h2 : (k * c + l) / c = k := by
    rw [Nat.mul_comm, Nat.mul_add_div hc, Nat.div_eq_of_lt hl, Nat.add_zero]
  have hik : i = k := by rw [← h1, ← h2, h]
  subst hik
  exact ⟨rfl, Nat.add_left_cancel h⟩

namespace mv

/-! ## Element access of `matrix` -/

section matrix_access

variable {α : Type} {r c : Nat} [Zero α]

theorem matrix_entry_eq (m : matrix α r c) {i j : Nat} (hi : i < r) (hj : j < c) :
    m.entry i j = m._data ⟨i * c + j, flat_index_lt hi hj⟩ := by
  simp [matrix.entry, flat_index_lt hi hj]

theorem matrix_get_at_entry (m : matrix α r c) {i j : Nat} (hi : i < r) (hj : j < c) :
    m.get_at i j = .ok (m.entry i j) := by
  simp [matrix.get_at, matrix.get, matrix.entry, flat_index_lt hi hj]

theorem matrix_set_at_entry (m : matrix α r c) {i j : Nat} (hi : i < r) (hj : j < c)
    (x : α) :
    ∃ u, m.set_at i j x = .ok u ∧
      ∀ k l, k < r → l < c → u.entry k l = if k = i ∧ l = j then x else m.entry k l := by
  refine ⟨⟨Function.update m._data ⟨i * c + j, flat_index_lt hi hj⟩ x⟩, ?_, ?_⟩
  · simp [matrix.set_at, matrix.set, flat_index_lt hi hj]
  · intro k l hk hl
    rw [matrix_entry_eq _ hk hl, matrix_entry_eq _ hk hl]
    show Function.update m._data _ x _ = _
    rw [Function.update_apply]
    by_cases h : k = i ∧ l = j
    · obtain ⟨rfl, rfl⟩ := h
      simp
    · have hne : ¬ (⟨k * c + l, flat_index_lt hk hl⟩ : Fin (r * c)) =
          ⟨i * c + j, flat_index_lt hi hj⟩ := by
        intro e
        exact h (flat_index_inj hl hj (Fin.mk.inj_iff.1 e))
      rw [if_neg hne, if_neg h]

theorem matrix_ext_entry {m u : matrix α r c}
    (h : ∀ i j, i < r → j < c → m.entry i j = u.entry i j) : m = u := by
  cases m with
  | mk d =>
    cases u with
    | mk e =>
      congr 1
      funext idx
      have hc : 0 < c := by
        rcases Nat.eq_zero_or_pos c with h0 | h0
        · have := idx.isLt; simp [h0] at this
        · exact h0
      have hi : idx.val / c < r := (Nat.div_lt_iff_lt_mul hc).2 idx.isLt
      have hj : idx.val % c < c := Nat.mod_lt _ hc
      have := h _ _ hi hj
      rw [matrix_entry_eq _ hi hj, matrix_entry_eq _ hi hj] at this
      have hidx : (⟨idx.val / c * c + idx.val % c, flat_index_lt hi hj⟩ : Fin (r * c)) = idx :=
        Fin.ext (Nat.div_add_mod' _ _)
      simpa [hidx] using this

theorem matrix_zeroed_entry (i j : Nat) : (matrix.zeroed : matrix α r c).entry i j = 0 := by
  simp [matrix.entry, matrix.zeroed]

theorem to_Matrix_injective {m u : matrix α r c} (h : m.to_Matrix = u.to_Matrix) : m = u :=
  matrix_ext_entry (fun i j hi hj => congrFun (congrFun h ⟨i, hi⟩) ⟨j, hj⟩)

end matrix_access

/-! ## The constructors of `matrix` -/

section matrix_ctor

variable {α : Type} {r c : Nat}

theorem matrix_diag_fill [Zero α] (hrc : r ≤ c) (v : α) (m0 : matrix α r c) :
    ∃ u, for_range r (fun i m => m.set (i + i * c) v) m0 = .ok u ∧
      ∀ k l, k < r → l < c → u.entry k l = if k = l then v else m0.entry k l := by
  obtain ⟨u, hu, hP⟩ := for_range_invariant
    (fun i (m : matrix α r c) =>
      ∀ k l, k < r → l < c → m.entry k l = if k = l ∧ k < i then v else m0.entry k l)
    r (fun i m => m.set (i + i * c) v) m0
    (by intro k l _ _; simp)
    (by
      intro i hi t ht
      obtain ⟨u, hu, hu'⟩ := matrix_set_at_entry t hi (Nat.lt_of_lt_of_le hi hrc) v
      refine ⟨u, ?_, ?_⟩
      · show t.set (i + i * c) v = _
        rw [Nat.add_comm]; exact hu
      · intro k l hk hl
        rw [hu' k l hk hl, ht k l hk hl]
        by_cases h1 : k = i ∧ l = i
        · obtain ⟨rfl, rfl⟩ := h1; simp
        · by_cases h2 : k = l
          · subst h2
            have hne : k ≠ i := fun e => h1 ⟨e, e⟩
            have : (k < i + 1) ↔ k < i := by omega
            simp [hne, this]
          · simp [h1, h2])
  refine ⟨u, hu, ?_⟩
  intro k l hk hl
  rw [hP k l hk hl]
  by_cases h : k = l
  · subst h; simp [hk]
  · simp [h]

theorem matrix_full_fill (v : α) (m0 : matrix α r c) :
    ∃ u, for_range (r * c) (fun i m => m.set i v) m0 = .ok u ∧ ∀ idx, u._data idx = v := by
  obtain ⟨u, hu, hP⟩ := for_range_invariant
    (fun i (m : matrix α r c) =>
      ∀ idx : Fin (r * c), m._data idx = if idx.val < i then v else m0._data idx)
    (r * c) (fun i m => m.set i v) m0
    (by intro idx; simp)
    (by
      intro i hi t ht
      refine ⟨⟨Function.update t._data ⟨i, hi⟩ v⟩, by simp [matrix.set, hi], ?_⟩
      intro idx
      show Function.update t._data _ v idx = _
      rw [Function.update_apply, ht idx]
      by_cases h : idx = ⟨i, hi⟩
      · subst h; simp
      · have hne : idx.val ≠ i := fun e => h (Fin.ext e)
        have : (idx.val < i + 1) ↔ idx.val < i := by omega
        simp [h, this])
  exact ⟨u, hu, fun idx => by rw [hP idx]; simp [idx.isLt]⟩

/-- The default constructor returns, with ones on the diagonal of a square matrix and
zeros everywhere else. -/
theorem matrix_ctor_entry [Zero α] [One α] :
    ∃ u, (matrix.ctor : outcome (matrix α r c)) = .ok u ∧
      ∀ k l, k < r → l < c → u.entry k l = if r = c ∧ k = l then 1 else 0 := by
  unfold matrix.ctor
  by_cases h : r = c
  · obtain ⟨u, hu, hP⟩ := matrix_diag_fill (Nat.le_of_eq h) (1 : α) (matrix.zeroed : matrix α r c)
    refine ⟨u, by rw [if_pos h]; exact hu, ?_⟩
    intro k l hk hl
    rw [hP k l hk hl, matrix_zeroed_entry]
    simp [h]
  · exact ⟨matrix.zeroed, by rw [if_neg h],
      fun k l _ _ => by rw [matrix_zeroed_entry]; simp [h]⟩

/-- The single-value constructor returns: the value on the diagonal of a square matrix
and zeros off it, the value everywhere otherwise. -/
theorem matrix_ctor_value_entry [Zero α] (v : α) :
    ∃ u, (matrix.ctor_value v : outcome (matrix α r c)) = .ok u ∧
      ∀ k l, k < r → l < c →
        u.entry k l = if r = c then (if k = l then v else 0) else v := by
  unfold matrix.ctor_value
  by_cases h : r = c
  · obtain ⟨u, hu, hP⟩ := matrix_diag_fill (Nat.le_of_eq h) v (matrix.zeroed : matrix α r c)
    refine ⟨u, by rw [if_pos h]; exact hu, ?_⟩
    intro k l hk hl
    rw [hP k l hk hl, matrix_zeroed_entry]
    simp [h]
  · obtain ⟨u, hu, hP⟩ := matrix_full_fill v (matrix.zeroed : matrix α r c)
    refine ⟨u, by rw [if_neg h]; exact hu, ?_⟩
    intro k l hk hl
    rw [matrix_entry_eq _ hk hl, hP]
    simp [h]

theorem matrix_ctor_value_zero [Zero α] :
    (matrix.ctor_value (0 : α) : outcome (matrix α r c)) = .ok matrix.zeroed := by
  obtain ⟨u, hu, hP⟩ := matrix_ctor_value_entry (r := r) (c := c) (0 : α)
  rw [hu]
  congr 1
  apply matrix_ext_entry
  intro i j hi hj
  rw [hP i j hi hj, matrix_zeroed_entry]
  split_ifs <;> rfl

/-- The default-constructed square matrix is the identity matrix. -/
theorem matrix_ctor_to_Matrix [Zero α] [One α] (n : Nat) :
    ∃ u, (matrix.ctor : outcome (matrix α n n)) = .ok u ∧ u.to_Matrix = 1 := by
  obtain ⟨u, hu, hP⟩ := matrix_ctor_entry (α := α) (r := n) (c := n)
  refine ⟨u, hu, ?_⟩
  funext i j
  show u.entry i.val j.val = _
  rw [hP _ _ i.isLt j.isLt, Matrix.one_apply]
  simp [Fin.ext_iff]

end matrix_ctor

/-! ## The matrix product -/

section matrix_product

variable {α : Type} {r c : Nat}

theorem mul_inner [Semiring α] (A : matrix α r c) (B : matrix α c c) {i j : Nat}
    (hi : i < r) (hj : j < c) (s : matrix α r c) :
    ∃ u, for_range c (fun k result => do
        let r ← result.get_at i j
        let a ← A.get_at i k
        let b ← B.get_at k j
        result.set_at i j (r + a * b)) s = .ok u ∧
      ∀ k l, k < r → l < c → u.entry k l =
        if k = i ∧ l = j then
          s.entry i j + ∑ x in Finset.range c, A.entry i x * B.entry x j
        else s.entry k l := by
  obtain ⟨u, hu, hP⟩ := for_range_invariant
    (fun n (m : matrix α r c) => ∀ k l, k < r → l < c → m.entry k l =
        if k = i ∧ l = j then
          s.entry i j + ∑ x in Finset.range n, A.entry i x * B.entry x j
        else s.entry k l)
    c _ s
    (by intro k l _ _; split_ifs with h
        · obtain ⟨rfl, rfl⟩ := h; simp
        · rfl)
    (by
      intro n hn t ht
      obtain ⟨u, hu, hu'⟩ := matrix_set_at_entry t hi hj
        (t.entry i j + A.entry i n * B.entry n j)
      refine ⟨u, ?_, ?_⟩
      · show (do
          let r ← t.get_at i j
          let a ← A.get_at i n
          let b ← B.get_at n j
          t.set_at i j (r + a * b)) = _
        rw [matrix_get_at_entry t hi hj, matrix_get_at_entry A hi hn,
          matrix_get_at_entry B hn hj]
        exact hu
      · intro k l hk hl
        rw [hu' k l hk hl]
        split_ifs with h
        · rw [ht i j hi hj, if_pos ⟨rfl, rfl⟩, Finset.sum_range_succ, add_assoc]
        · rw [ht k l hk hl, if_neg h])
  exact ⟨u, hu, hP⟩

theorem mul_row [Semiring α] (A : matrix α r c) (B : matrix α c c) {i : Nat}
    (hi : i < r) (s : matrix α r c) :
    ∃ u, for_range c (fun j result =>
        for_range c (fun k result => do
          let r ← result.get_at i j
          let a ← A.get_at i k
          let b ← B.get_at k j
          result.set_at i j (r + a * b)) result) s = .ok u ∧
      ∀ k l, k < r → l < c → u.entry k l =
        if k = i then
          s.entry k l + ∑ x in Finset.range c, A.entry i x * B.entry x l
        else s.entry k l := by
  obtain ⟨u, hu, hP⟩ := for_range_invariant
    (fun n (m : matrix α r c) => ∀ k l, k < r → l < c → m.entry k l =
        if k = i ∧ l < n then
          s.entry k l + ∑ x in Finset.range c, A.entry i x * B.entry x l
        else s.entry k l)
    c _ s
    (by intro k l _ _; simp)
    (by
      intro n hn t ht
      obtain ⟨u, hu, hu'⟩ := mul_inner A B hi hn t
      refine ⟨u, hu, ?_⟩
      intro k l hk hl
      rw [hu' k l hk hl]
      by_cases h : k = i ∧ l = n
      · obtain ⟨rfl, rfl⟩ := h
        rw [if_pos ⟨rfl, rfl⟩, ht k l hk hl, if_neg (by omega), if_pos ⟨rfl, by omega⟩]
      · rw [if_neg h, ht k l hk hl]
        have : (k = i ∧ l < n + 1) ↔ (k = i ∧ l < n) := by omega
        simp only [this])
  refine ⟨u, hu, ?_⟩
  intro k l hk hl
  rw [hP k l hk hl]
  simp only [hl, and_true]

/-- The product of the model is the matrix product, entry by entry. -/
theorem mul_entry [Semiring α] (A : matrix α r c) (B : matrix α c c) :
    ∃ u, mul A B = .ok u ∧
      ∀ k l, k < r → l < c →
        u.entry k l = ∑ x in Finset.range c, A.entry k x * B.entry x l := by
  obtain ⟨u, hu, hP⟩ := for_range_invariant
    (fun n (m : matrix α r c) => ∀ k l, k < r → l < c → m.entry k l =
        if k < n then ∑ x in Finset.range c, A.entry k x * B.entry x l else 0)
    r (fun i result =>
      for_range c (fun j result =>
        for_range c (fun k result => do
          let r ← result.get_at i j
          let a ← A.get_at i k
          let b ← B.get_at k j
          result.set_at i j (r + a * b)) result) result) matrix.zeroed
    (by intro k l _ _; simp [matrix_zeroed_entry])
    (by
      intro n hn t ht
      obtain ⟨u, hu, hu'⟩ := mul_row A B hn t
      refine ⟨u, hu, ?_⟩
      intro k l hk hl
      rw [hu' k l hk hl, ht k l hk hl]
      by_cases h : k = n
      · subst h; simp
      · have : (k < n + 1) ↔ k < n := by omega
        simp only [h, this, if_false])
  refine ⟨u, ?_, ?_⟩
  · unfold mul
    rw [matrix_ctor_value_zero]
    exact hu
  · intro k l hk hl
    rw [hP k l hk hl, if_pos hk]

theorem mul_to_Matrix [Semiring α] (A : matrix α r c) (B : matrix α c c) :
    ∃ u, mul A B = .ok u ∧ u.to_Matrix = A.to_Matrix * B.to_Matrix := by
  obtain ⟨u, hu, hP⟩ := mul_entry A B
  refine ⟨u, hu, ?_⟩
  funext i j
  show u.entry i.val j.val = _
  rw [hP _ _ i.isLt j.isLt, Matrix.mul_apply, Finset.sum_range]
  rfl

end matrix_product


/-! ## Element access and constructors of `vector` -/

section vector_access

variable {α : Type} {d : Nat}

variable [Zero α]

theorem vector_entry_eq (v : vector α d) {i : Nat} (hi : i < d) : v.entry i = v._data ⟨i, hi⟩ := by
  simp [vector.entry, hi]

theorem vector_get_entry (v : vector α d) {i : Nat} (hi : i < d) : v.get i = .ok (v.entry i) := by
  simp [vector.get, vector.entry, hi]

theorem vector_set_entry (v : vector α d) {i : Nat} (hi : i < d) (x : α) :
    ∃ u, v.set i x = .ok u ∧ ∀ k, k < d → u.entry k = if k = i then x else v.entry k := by
  refine ⟨⟨Function.update v._data ⟨i, hi⟩ x⟩, by simp [vector.set, hi], ?_⟩
  intro k hk
  rw [vector_entry_eq _ hk, vector_entry_eq _ hk]
  show Function.update v._data _ x _ = _
  rw [Function.update_apply]
  by_cases h : k = i
  · subst h; simp
  · have : ¬ (⟨k, hk⟩ : Fin d) = ⟨i, hi⟩ := fun e => h (Fin.mk.inj_iff.1 e)
    rw [if_neg this, if_neg h]

theorem vector_ext_entry {v u : vector α d} (h : ∀ i, i < d → v.entry i = u.entry i) : v = u := by
  cases v with
  | mk a =>
    cases u with
    | mk b =>
      congr 1
      funext idx
      have := h idx.val idx.isLt
      rw [vector_entry_eq _ idx.isLt, vector_entry_eq _ idx.isLt] at this
      exact this

theorem vector_ctor_entry (i : Nat) : (vector.ctor : vector α d).entry i = 0 := by
  simp [vector.entry, vector.ctor]

theorem vector_ctor_value_entry (x : α) :
    ∃ u, (vector.ctor_value x : outcome (vector α d)) = .ok u ∧ ∀ k, k < d → u.entry k = x := by
  obtain ⟨u, hu, hP⟩ := for_range_invariant
    (fun n (v : vector α d) => ∀ k, k < d → v.entry k = if k < n then x else 0)
    d (fun i v => v.set i x) vector.ctor
    (by intro k _; simp [vector_ctor_entry])
    (by
      intro n hn t ht
      obtain ⟨u, hu, hu'⟩ := vector_set_entry t hn x
      refine ⟨u, hu, ?_⟩
      intro k hk
      rw [hu' k hk, ht k hk]
      by_cases h : k = n
      · subst h; simp
      · have : (k < n + 1) ↔ k < n := by omega
        simp only [h, this, if_false])
  exact ⟨u, hu, fun k hk => by rw [hP k hk, if_pos hk]⟩

theorem vector_ctor_value_zero :
    (vector.ctor_value (0 : α) : outcome (vector α d)) = .ok vector.ctor := by
  obtain ⟨u, hu, hP⟩ := vector_ctor_value_entry (d := d) (0 : α)
  rw [hu]
  congr 1
  apply vector_ext_entry
  intro i hi
  rw [hP i hi, vector_ctor_entry]

end vector_access


/-! ## The matrix-vector product -/

section matrix_vector_product

variable {α : Type} {r c : Nat}

theorem mul_vec_column [Semiring α] (hrc : r ≤ c) (A : matrix α r c) (v : vector α c)
    {j : Nat} (hj : j < c) (s : vector α c) :
    ∃ u, for_range r (fun i result => do
        let r ← result.get i
        let x ← v.get j
        let a ← A.get_at i j
        result.set i (r + x * a)) s = .ok u ∧
      ∀ k, k < c → u.entry k =
        if k < r then s.entry k + v.entry j * A.entry k j else s.entry k := by
  obtain ⟨u, hu, hP⟩ := for_range_invariant
    (fun n (m : vector α c) => ∀ k, k < c → m.entry k =
        if k < n then s.entry k + v.entry j * A.entry k j else s.entry k)
    r _ s
    (by intro k _; simp)
    (by
      intro n hn t ht
      have hnc : n < c := Nat.lt_of_lt_of_le hn hrc
      obtain ⟨u, hu, hu'⟩ := vector_set_entry t hnc (t.entry n + v.entry j * A.entry n j)
      refine ⟨u, ?_, ?_⟩
      · show (do
          let r ← t.get n
          let x ← v.get j
          let a ← A.get_at n j
          t.set n (r + x * a)) = _
        rw [vector_get_entry t hnc, vector_get_entry v hj, matrix_get_at_entry A hn hj]
        exact hu
      · intro k hk
        rw [hu' k hk]
        by_cases h : k = n
        · subst h
          rw [if_pos rfl, ht k hk, if_neg (Nat.lt_irrefl k), if_pos (Nat.lt_succ_self k)]
        · have : (k < n + 1) ↔ k < n := by omega
          rw [if_neg h, ht k hk]
          simp only [this])
  exact ⟨u, hu, hP⟩

/-- The matrix-vector product of the model, for a matrix with no more rows than
columns: component `k` is the sum over `j` of `v[j] * A[k][j]` for `k < _row`, and the
components from `_row` on keep the `0.0` they were constructed with. -/
theorem mul_vec_entry [Semiring α] (hrc : r ≤ c) (A : matrix α r c) (v : vector α c) :
    ∃ u, mul_vec A v = .ok u ∧
      ∀ k, k < c → u.entry k =
        if k < r then ∑ x in Finset.range c, v.entry x * A.entry k x else 0 := by
  obtain ⟨u, hu, hP⟩ := for_range_invariant
    (fun n (m : vector α c) => ∀ k, k < c → m.entry k =
        if k < r then ∑ x in Finset.range n, v.entry x * A.entry k x else 0)
    c (fun j result =>
      for_range r (fun i result => do
        let r ← result.get i
        let x ← v.get j
        let a ← A.get_at i j
        result.set i (r + x * a)) result) vector.ctor
    (by intro k _; simp [vector_ctor_entry])
    (by
      intro n hn t ht
      obtain ⟨u, hu, hu'⟩ := mul_vec_column hrc A v hn t
      refine ⟨u, hu, ?_⟩
      intro k hk
      rw [hu' k hk, ht k hk]
      split_ifs with h
      · rw [Finset.sum_range_succ]
      · rfl)
  refine ⟨u, ?_, hP⟩
  unfold mul_vec
  rw [vector_ctor_value_zero]
  exact hu

theorem mul_vec_to_Matrix [CommSemiring α] {n : Nat} (A : matrix α n n) (v : vector α n) :
    mul_vec A v = .ok ⟨Matrix.mulVec A.to_Matrix v._data⟩ := by
  obtain ⟨u, hu, hP⟩ := mul_vec_entry (Nat.le_refl n) A v
  rw [hu]
  congr 1
  apply vector_ext_entry
  intro i hi
  rw [hP i hi, if_pos hi, vector_entry_eq _ hi]
  show _ = Matrix.mulVec A.to_Matrix v._data ⟨i, hi⟩
  rw [Matrix.mulVec, Matrix.dotProduct, Finset.sum_range]
  refine Finset.sum_congr rfl (fun x _ => ?_)
  rw [vector_entry_eq _ x.isLt, mul_comm]
  rfl

end matrix_vector_product


/-! ## The determinant -/

section determinant

variable {α : Type}

theorem det_minor_row [CommRing α] {n : Nat} (mat : matrix α (n + 3) (n + 3)) (k : Nat)
    {i : Nat} (hi : i < n + 2) (s : matrix α (n + 2) (n + 3 - 1)) :
    ∃ u, for_range (n + 3 - 1)
        (fun j (state : matrix α (n + 2) (n + 3 - 1) × Bool) => do
          let column := if j = k then true else state.2
          let x ← if column then mat.get_at (i + 1) (j + 1) else mat.get_at (i + 1) j
          let minor ← state.1.set_at i j x
          pure (minor, column)) (s, false) = .ok u ∧
      ∀ a b, a < n + 2 → b < n + 3 - 1 → u.1.entry a b =
        if a = i then mat.entry (i + 1) (if k ≤ b then b + 1 else b) else s.entry a b := by
  obtain ⟨u, hu, hP⟩ := for_range_invariant
    (fun j (st : matrix α (n + 2) (n + 3 - 1) × Bool) =>
      (st.2 = true ↔ k < j) ∧
      ∀ a b, a < n + 2 → b < n + 3 - 1 → st.1.entry a b =
        if a = i ∧ b < j then mat.entry (i + 1) (if k ≤ b then b + 1 else b)
        else s.entry a b)
    (n + 3 - 1) _ (s, false)
    ⟨by simp, by intro a b _ _; simp⟩
    (by
      intro j hj t ht
      obtain ⟨hflag, hent⟩ := ht
      have hj2 : j < n + 2 := hj
      have hcol : ((if j = k then true else t.2) = true) ↔ k ≤ j := by
        by_cases hjk : j = k
        · simp [hjk]
        · rw [if_neg hjk, hflag]; omega
      obtain ⟨u, hu, hu'⟩ := matrix_set_at_entry t.1 hi hj
        (mat.entry (i + 1) (if k ≤ j then j + 1 else j))
      refine ⟨(u, if j = k then true else t.2), ?_, ?_, ?_⟩
      · show (do
          let x ← if (if j = k then true else t.2) = true then mat.get_at (i + 1) (j + 1)
            else mat.get_at (i + 1) j
          let minor ← t.1.set_at i j x
          pure (minor, if j = k then true else t.2)) = _
        by_cases hkj : k ≤ j
        · rw [if_pos (hcol.2 hkj),
            matrix_get_at_entry mat (by omega : i + 1 < n + 3) (by omega : j + 1 < n + 3)]
          rw [if_pos hkj] at hu
          show (t.1.set_at i j _ >>= fun minor => pure (minor, _)) = _
          rw [hu]; rfl
        · rw [if_neg (fun h => hkj (hcol.1 h)),
            matrix_get_at_entry mat (by omega : i + 1 < n + 3) (by omega : j < n + 3)]
          rw [if_neg hkj] at hu
          show (t.1.set_at i j _ >>= fun minor => pure (minor, _)) = _
          rw [hu]; rfl
      · show ((if j = k then true else t.2) = true) ↔ k < j + 1
        rw [hcol]; omega
      · intro a b ha hb
        show u.entry a b = _
        rw [hu' a b ha hb]
        by_cases h : a = i ∧ b = j
        · obtain ⟨rfl, rfl⟩ := h
          simp
        · rw [if_neg h, hent a b ha hb]
          have : (a = i ∧ b < j + 1) ↔ (a = i ∧ b < j) := by omega
          simp only [this])
  refine ⟨u, hu, ?_⟩
  intro a b ha hb
  rw [hP.2 a b ha hb]
  simp only [hb, and_true]

/-- The minor `det` builds for the column `k` is the matrix without its row `0` and
its column `k`. -/
theorem det_minor_entry [CommRing α] {n : Nat} (mat : matrix α (n + 3) (n + 3)) (k : Nat) :
    ∃ u, det_minor mat k = .ok u ∧
      ∀ a b, a < n + 2 → b < n + 3 - 1 →
        u.entry a b = mat.entry (a + 1) (if k ≤ b then b + 1 else b) := by
  obtain ⟨m0, hm0, -⟩ := matrix_ctor_entry (α := α) (r := n + 2) (c := n + 3 - 1)
  obtain ⟨u, hu, hP⟩ := for_range_invariant
    (fun i (m : matrix α (n + 2) (n + 3 - 1)) =>
      ∀ a b, a < n + 2 → b < n + 3 - 1 → m.entry a b =
        if a < i then mat.entry (a + 1) (if k ≤ b then b + 1 else b) else m0.entry a b)
    (n + 3 - 1) (fun i minor => do
      let filled ← for_range (n + 3 - 1)
        (fun j (state : matrix α (n + 2) (n + 3 - 1) × Bool) => do
          let column := if j = k then true else state.2
          let x ← if column then mat.get_at (i + 1) (j + 1) else mat.get_at (i + 1) j
          let minor ← state.1.set_at i j x
          pure (minor, column)) (minor, false)
      pure filled.1) m0
    (by intro a b _ _; simp)
    (by
      intro i hi t ht
      obtain ⟨u, hu, hu'⟩ := det_minor_row mat k (i := i) hi t
      refine ⟨u.1, ?_, ?_⟩
      · show (for_range (n + 3 - 1) _ (t, false) >>= fun filled => pure filled.1) = _
        rw [hu]; rfl
      · intro a b ha hb
        rw [hu' a b ha hb]
        by_cases h : a = i
        · subst h; rw [if_pos rfl, if_pos (Nat.lt_succ_self a)]
        · have : (a < i + 1) ↔ a < i := by omega
          rw [if_neg h, ht a b ha hb]
          simp only [this])
  refine ⟨u, ?_, ?_⟩
  · unfold det_minor
    show ((matrix.ctor : outcome (matrix α (n + 2) (n + 3 - 1))) >>= fun minor => _) = _
    rw [hm0]
    exact hu
  · intro a b ha hb
    have ha' : a < n + 3 - 1 := ha
    rw [hP a b ha hb, if_pos ha']


theorem det_minor_to_Matrix [CommRing α] {n : Nat} (mat : matrix α (n + 3) (n + 3))
    (k : Fin (n + 3)) :
    ∃ u : matrix α (n + 2) (n + 2), det_minor mat k.val = .ok u ∧
      u.to_Matrix = mat.to_Matrix.submatrix Fin.succ k.succAbove := by
  obtain ⟨u, hu, hP⟩ := det_minor_entry mat k.val
  refine ⟨u, hu, ?_⟩
  funext a b
  have h := hP a.val b.val a.isLt b.isLt
  show u.entry a.val b.val = _
  refine h.trans ?_
  rw [Matrix.submatrix_apply]
  show _ = mat.entry _ _
  congr 1
  by_cases hkb : k.val ≤ b.val
  · rw [if_pos hkb, Fin.succAbove_of_le_castSucc k b (by simpa [Fin.le_def] using hkb)]
    rfl
  · rw [if_neg hkb, Fin.succAbove_of_castSucc_lt k b (by
      rw [Fin.lt_def]; simpa using Nat.lt_of_not_le hkb)]
    rfl

theorem det_one_by_one [CommRing α] (M : matrix α 1 1) :
    det 1 1 M = .ok (M.entry 0 0) := by
  rw [det, if_neg (by simp), matrix_get_at_entry M (by decide) (by decide)]

theorem det_two_by_two [CommRing α] (M : matrix α 2 2) :
    det 2 2 M = .ok (M.entry 0 0 * M.entry 1 1 - M.entry 0 1 * M.entry 1 0) := by
  simp [det, matrix.key, matrix._hash, matrix.get, matrix.entry, bind, Except.bind, pure,
    Except.pure]

/-- One step of the recursion of `det`: the loop adds up the first-row cofactors. -/
theorem det_expand [CommRing α] {n : Nat} (mat : matrix α (n + 3) (n + 3))
    (ih : ∀ M : matrix α (n + 2) (n + 2), det (n + 2) (n + 2) M = .ok M.to_Matrix.det) :
    det (n + 3) (n + 3) mat = .ok (∑ k : Fin (n + 3),
      (-1) ^ (k : ℕ) * mat.to_Matrix 0 k *
        (mat.to_Matrix.submatrix Fin.succ k.succAbove).det) := by
  let g : Nat → α := fun k =>
    if h : k < n + 3 then
      (-1) ^ k * (mat.to_Matrix.submatrix Fin.succ (Fin.succAbove ⟨k, h⟩)).det * mat.entry 0 k
    else 0
  obtain ⟨u, hu, hP⟩ := for_range_invariant
    (fun k (result : α) => result = ∑ x in Finset.range k, g x)
    (n + 3) (fun k result => do
        let minor ← det_minor mat k
        let d ← det (n + 2) (n + 3 - 1) minor
        let m0k ← mat.get_at 0 k
        pure (result + (-1) ^ k * d * m0k)) 0
    (by simp)
    (by
      intro k hk t ht
      obtain ⟨m, hm, hm'⟩ := det_minor_to_Matrix mat ⟨k, hk⟩
      refine ⟨t + g k, ?_, ?_⟩
      · show (det_minor mat k >>= fun minor =>
          det (n + 2) (n + 2) minor >>= fun d =>
          mat.get_at 0 k >>= fun m0k => pure (t + (-1) ^ k * d * m0k)) = _
        have hm2 : det_minor mat k = .ok m := hm
        rw [hm2]
        show (det (n + 2) (n + 2) m >>= fun d =>
          mat.get_at 0 k >>= fun m0k => pure (t + (-1) ^ k * d * m0k)) = _
        rw [ih m, matrix_get_at_entry mat (by omega : 0 < n + 3) hk, hm']
        show Except.ok _ = _
        simp only [g, dif_pos hk]
      · show t + g k = ∑ x in Finset.range (k + 1), g x
        rw [Finset.sum_range_succ, ht])
  rw [det, if_neg (by simp)]
  refine hu.trans ?_
  rw [hP, Finset.sum_range]
  congr 1
  refine Finset.sum_congr rfl (fun k _ => ?_)
  simp only [g, dif_pos k.isLt, Fin.eta]
  show _ = (-1) ^ (k : ℕ) * mat.entry 0 k.val * _
  ring

/-- On a square matrix of order at least one, `det` returns the determinant. -/
theorem det_eq_Matrix_det [CommRing α] (n : Nat) (M : matrix α (n + 1) (n + 1)) :
    det (n + 1) (n + 1) M = .ok M.to_Matrix.det := by
  have h2 : ∀ m : Nat, ∀ M : matrix α (m + 2) (m + 2),
      det (m + 2) (m + 2) M = .ok M.to_Matrix.det := by
    intro m
    induction m with
    | zero =>
      intro M
      rw [det_two_by_two, Matrix.det_fin_two]
      rfl
    | succ m ih =>
      intro M
      rw [det_expand M ih, Matrix.det_succ_row_zero]
  cases n with
  | zero =>
    rw [det_one_by_one, Matrix.det_fin_one]
    rfl
  | succ n => exact h2 n M

end determinant

end mv

/-! ## The determinant claims -/

namespace mv

variable {α : Type}

/-- C7: `det` of a square matrix is its determinant. Order 1: the single element. Order
2: `M[0][0] * M[1][1] - M[0][1] * M[1][0]`, read through the keys. Order 3 and more: the
minor built for each column `k` (the last included) is the matrix without row 0 and
column `k`, and the result is the first-row expansion, the sum over `k` of
`(-1)^k * M[0][k] * det(minor_k)`. -/
theorem det_is_first_row_expansion [CommRing α] :
    (∀ M : matrix α 1 1, det 1 1 M = .ok (M.entry 0 0)) ∧
    (∀ M : matrix α 2 2,
      det 2 2 M = .ok (M.entry 0 0 * M.entry 1 1 - M.entry 0 1 * M.entry 1 0)) ∧
    (∀ (n : Nat) (M : matrix α (n + 3) (n + 3)),
      (∀ k : Fin (n + 3), ∃ minor : matrix α (n + 2) (n + 2),
        det_minor M k.val = .ok minor ∧
        minor.to_Matrix = M.to_Matrix.submatrix Fin.succ k.succAbove) ∧
      det (n + 3) (n + 3) M = .ok (∑ k : Fin (n + 3),
        (-1) ^ k.val * M.entry 0 k.val *
          (M.to_Matrix.submatrix Fin.succ k.succAbove).det)) ∧
    (∀ (n : Nat) (M : matrix α (n + 1) (n + 1)),
      det (n + 1) (n + 1) M = .ok M.to_Matrix.det) :=
  ⟨det_one_by_one, det_two_by_two,
    fun n M => ⟨det_minor_to_Matrix M, det_expand M (det_eq_Matrix_det (n + 1))⟩,
    det_eq_Matrix_det⟩

/-- C8: for square matrices of the same order, the product returns and its `det` is the
product of the two `det`s. -/
theorem det_of_product [CommRing α] (n : Nat) (A B : matrix α (n + 1) (n + 1)) :
    ∃ P a b, mul A B = .ok P ∧ det (n + 1) (n + 1) A = .ok a ∧
      det (n + 1) (n + 1) B = .ok b ∧ det (n + 1) (n + 1) P = .ok (a * b) := by
  obtain ⟨P, hP, hmul⟩ := mul_to_Matrix A B
  refine ⟨P, _, _, hP, det_eq_Matrix_det n A, det_eq_Matrix_det n B, ?_⟩
  rw [det_eq_Matrix_det n P, hmul, Matrix.det_mul]

/-- C9: when `A'` holds the rows of `A` with the distinct rows `i` and `j` exchanged,
`det(A')` is the negation of `det(A)`. -/
theorem det_of_swapped_rows [CommRing α] (n : Nat) (A A' : matrix α (n + 1) (n + 1))
    (i j : Fin (n + 1)) (hij : i ≠ j)
    (hswap : ∀ a b : Fin (n + 1), A'.get_at a.val b.val =
      A.get_at (Equiv.swap i j a).val b.val) :
    ∃ d, det (n + 1) (n + 1) A = .ok d ∧ det (n + 1) (n + 1) A' = .ok (-d) := by
  have hsub : A'.to_Matrix = A.to_Matrix.submatrix (Equiv.swap i j) id := by
    funext a b
    have h := hswap a b
    rw [matrix_get_at_entry A' a.isLt b.isLt,
      matrix_get_at_entry A (Equiv.swap i j a).isLt b.isLt] at h
    exact Except.ok.inj h
  refine ⟨_, det_eq_Matrix_det n A, ?_⟩
  rw [det_eq_Matrix_det n A', hsub, Matrix.det_permute, Equiv.Perm.sign_swap hij]
  simp

/-- Witness for C9: the rows of a 2 by 2 integer matrix exchanged. -/
theorem det_of_swapped_rows_witness :
    ∃ d, det 2 2 (⟨![1, 2, 3, 4]⟩ : matrix ℤ 2 2) = .ok d ∧
      det 2 2 (⟨![3, 4, 1, 2]⟩ : matrix ℤ 2 2) = .ok (-d) :=
  det_of_swapped_rows 1 ⟨![1, 2, 3, 4]⟩ ⟨![3, 4, 1, 2]⟩ 0 1 (by decide)
    (by intro a b; fin_cases a <;> fin_cases b <;> rfl)

/-- C10: the default-constructed square matrix of any order from 1 on has `det` 1; in
particular the 3 by 3 one. -/
theorem det_of_identity [CommRing α] :
    (∀ n : Nat, ∃ I : matrix α (n + 1) (n + 1),
      matrix.ctor = .ok I ∧ det (n + 1) (n + 1) I = .ok 1) ∧
    (∃ I : matrix α 3 3, matrix.ctor = .ok I ∧ det 3 3 I = .ok 1) := by
  have h : ∀ n : Nat, ∃ I : matrix α (n + 1) (n + 1),
      matrix.ctor = .ok I ∧ det (n + 1) (n + 1) I = .ok 1 := by
    intro n
    obtain ⟨I, hI, hone⟩ := matrix_ctor_to_Matrix (α := α) (n + 1)
    exact ⟨I, hI, by rw [det_eq_Matrix_det n I, hone, Matrix.det_one]⟩
  exact ⟨h, h 2⟩

end mv

/-! ## The curves -/

namespace curves

open mv

section curve_lemmas

variable {α : Type}

theorem linear_operator_or_default_ok [Zero α] [One α] (linear_operator : Option (matrix α 3 3)) :
    ∃ L, linear_operator_or_default linear_operator = .ok L ∧
      (∀ M, linear_operator = some M → L = M) ∧
      (linear_operator = none → L.to_Matrix = 1) := by
  cases linear_operator with
  | some M => exact ⟨M, rfl, (fun _ h => Option.some.inj h), (fun h => nomatch h)⟩
  | none =>
    obtain ⟨u, hu, hI⟩ := matrix_ctor_to_Matrix (α := α) 3
    exact ⟨u, hu, (fun _ h => nomatch h), (fun _ => hI)⟩

theorem valid_one [LinearOrderedRing α] (R : α) (op : Option (matrix α 3 3)) :
    curve_builder._valid [R] op = decide (0 ≤ R) := by
  cases op <;> simp [curve_builder._valid]

theorem valid_two [LinearOrderedRing α] (a b : α) (op : Option (matrix α 3 3)) :
    curve_builder._valid [a, b] op = (decide (0 ≤ a) && decide (0 ≤ b)) := by
  cases op <;> simp [curve_builder._valid]

/-- The validator accepts a pack exactly when every number of it passes `>= 0.0`. -/
theorem valid_iff_all [Zero α] [LE α] [DecidableRel ((· ≤ ·) : α → α → Prop)]
    (data : List α) (op : Option (matrix α 3 3)) :
    curve_builder._valid data op = true ↔ ∀ x ∈ data, 0 ≤ x := by
  induction data with
  | nil => cases op <;> simp [curve_builder._valid]
  | cons a t ih =>
    simp only [curve_builder._valid, Bool.and_eq_true, decide_eq_true_eq, ih,
      List.mem_cons, forall_eq_or_imp, ge_iff_le]

/-- A number of `double` fails `>= 0.0` exactly when it is NaN or negative. -/
theorem double_not_ge_zero {β : Type} [LinearOrderedRing β] (x : double β) :
    ¬ 0 ≤ x ↔ x = .NaN ∨ x < 0 := by
  cases x with
  | NaN => exact ⟨fun _ => Or.inl rfl, fun _ h => h⟩
  | number a =>
    constructor
    · intro h
      exact Or.inr (show a < 0 from not_le.1 h)
    · rintro (h | h)
      · cases h
      · exact not_le.2 (show a < 0 from h)

/-- The outcome of `make_curve` on a pack some constructor accepts: the exception when
the validator rejects the pack, the curve of the variant otherwise. -/
theorem make_curve_pack [Zero α] [One α] [LE α] [DecidableRel ((· ≤ ·) : α → α → Prop)]
    (curve : curve_t) (data : List α) (op : Option (matrix α 3 3))
    (hpack : curve_builder.make_curve curve data op ≠
      .error (.ill_formed "no matching constructor")) :
    (curve_builder._valid data op = false →
      curve_builder.make_curve curve data op =
        .error (.build_exception "Curve is not physically correct")) ∧
    (curve_builder._valid data op = true →
      ∃ c, curve_builder.make_curve curve data op = .ok c ∧
        c.shape_parameters <+: data ∧ (∀ M, op = some M → c._lin_op = M) ∧
        (curve = .CIRCLE → ∃ R L, c = .circle R L) ∧
        (curve = .ELLIPSE → ∃ Rx Ry L, c = .ellipse Rx Ry L) ∧
        (curve = .HELIX → ∃ R h L, c = .helix R h L)) := by
  obtain ⟨L, hL, -, -⟩ := linear_operator_or_default_ok (none : Option (matrix α 3 3))
  have hL' : (matrix.ctor : outcome (matrix α 3 3)) = .ok L := hL
  cases curve <;> rcases data with _ | ⟨a, _ | ⟨b, _ | ⟨c, _ | ⟨d, t⟩⟩⟩⟩ <;> cases op <;>
    first
    | exact absurd rfl hpack
    | (refine ⟨fun hv => ?_, fun hv => ?_⟩
       · simp [curve_builder.make_curve, hv]
       · simp [curve_builder.make_curve, hv, circle.ctor, ellipse.ctor, helix.ctor, hL',
           linear_operator_or_default, matrix.ctor_values, matrix._fill, matrix.set,
           interface_curve.shape_parameters, interface_curve._lin_op,
           bind, Except.bind, pure, Except.pure])

theorem vec3_ctor_values [Zero α] (a b c : α) :
    (vector.ctor_values [a, b, c] : outcome (vector α 3)) = .ok ⟨![a, b, c]⟩ := by
  simp only [vector.ctor_values, vector._fill, vector.set, List.length_cons, List.length_nil,
    Except.bind]
  simp only [Nat.reduceAdd, Nat.reduceLT, Nat.lt_irrefl, if_true, dite_true, Nat.zero_lt_succ,
    Nat.zero_add]
  congr 1
  congr 1
  funext i
  fin_cases i <;> simp [Function.update, vector.ctor]

/-- Evaluating a curve applies the stored operator to the raw point. -/
theorem get_value_eq [CommRing α] (cos sin : α → α) (L : matrix α 3 3) (t : α) :
    (∀ R, get_value cos sin (.circle R L) t =
        .ok ⟨L.to_Matrix.mulVec ![R * cos t, R * sin t, 0]⟩) ∧
    (∀ Rx Ry, get_value cos sin (.ellipse Rx Ry L) t =
        .ok ⟨L.to_Matrix.mulVec ![Rx * cos t, Ry * sin t, 0]⟩) ∧
    (∀ R h, get_value cos sin (.helix R h L) t =
        .ok ⟨L.to_Matrix.mulVec ![R * cos t, R * sin t, h * t]⟩) := by
  refine ⟨fun R => ?_, fun Rx Ry => ?_, fun R h => ?_⟩ <;>
  · simp only [get_value, vec3_ctor_values, bind, Except.bind]
    exact mul_vec_to_Matrix L _

theorem get_d_dt_value_eq [CommRing α] (cos sin : α → α) (L : matrix α 3 3) (t : α) :
    (∀ R, get_d_dt_value cos sin (.circle R L) t =
        .ok ⟨L.to_Matrix.mulVec ![R * (-sin t), R * cos t, 0]⟩) ∧
    (∀ Rx Ry, get_d_dt_value cos sin (.ellipse Rx Ry L) t =
        .ok ⟨L.to_Matrix.mulVec ![Rx * (-sin t), Ry * cos t, 0]⟩) ∧
    (∀ R h, get_d_dt_value cos sin (.helix R h L) t =
        .ok ⟨L.to_Matrix.mulVec ![R * (-sin t), R * cos t, h]⟩) := by
  refine ⟨fun R => ?_, fun Rx Ry => ?_, fun R h => ?_⟩ <;>
  · simp only [get_d_dt_value, vec3_ctor_values, bind, Except.bind]
    exact mul_vec_to_Matrix L _

theorem hasDerivAt_mulVec (M : Matrix (Fin 3) (Fin 3) ℝ) (a b c : ℝ → ℝ) (a' b' c' t : ℝ)
    (ha : HasDerivAt a a' t) (hb : HasDerivAt b b' t) (hc : HasDerivAt c c' t) (i : Fin 3) :
    HasDerivAt (fun s => M.mulVec ![a s, b s, c s] i) (M.mulVec ![a', b', c'] i) t := by
  have h := ((ha.const_mul (M i 0)).add (hb.const_mul (M i 1))).add (hc.const_mul (M i 2))
  have e1 : (fun s => M.mulVec ![a s, b s, c s] i) =
      fun s => M i 0 * a s + M i 1 * b s + M i 2 * c s := by
    funext s
    simp [Matrix.mulVec, Matrix.dotProduct, Fin.sum_univ_three]
  have e2 : M.mulVec ![a', b', c'] i = M i 0 * a' + M i 1 * b' + M i 2 * c' := by
    simp [Matrix.mulVec, Matrix.dotProduct, Fin.sum_univ_three]
  rw [e1, e2]
  exact h

end curve_lemmas

/-- C3: for each variant, `get_value(t)` is the stored operator applied, as a
matrix-vector product, to the raw point, and `get_d_dt_value(t)` is the operator applied
to the raw velocity: circle `(R cos t, R sin t, 0)` and `(-R sin t, R cos t, 0)`, ellipse
`(Rx cos t, Ry sin t, 0)` and `(-Rx sin t, Ry cos t, 0)`, helix `(R cos t, R sin t, h t)`
and `(-R sin t, R cos t, h)`. -/
theorem get_value_applies_operator (L : matrix ℝ 3 3) (t : ℝ) :
    (∀ R : ℝ,
      get_value Real.cos Real.sin (.circle R L) t =
        .ok ⟨L.to_Matrix.mulVec ![R * Real.cos t, R * Real.sin t, 0]⟩ ∧
      get_d_dt_value Real.cos Real.sin (.circle R L) t =
        .ok ⟨L.to_Matrix.mulVec ![-R * Real.sin t, R * Real.cos t, 0]⟩) ∧
    (∀ Rx Ry : ℝ,
      get_value Real.cos Real.sin (.ellipse Rx Ry L) t =
        .ok ⟨L.to_Matrix.mulVec ![Rx * Real.cos t, Ry * Real.sin t, 0]⟩ ∧
      get_d_dt_value Real.cos Real.sin (.ellipse Rx Ry L) t =
        .ok ⟨L.to_Matrix.mulVec ![-Rx * Real.sin t, Ry * Real.cos t, 0]⟩) ∧
    (∀ R h : ℝ,
      get_value Real.cos Real.sin (.helix R h L) t =
        .ok ⟨L.to_Matrix.mulVec ![R * Real.cos t, R * Real.sin t, h * t]⟩ ∧
      get_d_dt_value Real.cos Real.sin (.helix R h L) t =
        .ok ⟨L.to_Matrix.mulVec ![-R * Real.sin t, R * Real.cos t, h]⟩) := by
  obtain ⟨p1, p2, p3⟩ := get_value_eq Real.cos Real.sin L t
  obtain ⟨v1, v2, v3⟩ := get_d_dt_value_eq Real.cos Real.sin L t
  refine ⟨fun R => ⟨p1 R, ?_⟩, fun Rx Ry => ⟨p2 Rx Ry, ?_⟩, fun R h => ⟨p3 R h, ?_⟩⟩
  · rw [v1 R, neg_mul, mul_neg]
  · rw [v2 Rx Ry, neg_mul, mul_neg]
  · rw [v3 R h, neg_mul, mul_neg]

/-- C4: for every curve and every real `t`, both evaluations return, and each component
of `get_d_dt_value(t)` is the derivative at `t` of that component of `get_value`. -/
theorem velocity_is_derivative_of_position (c : interface_curve ℝ) (t : ℝ) :
    ∃ p v : ℝ → curve_point ℝ,
      (∀ s, get_value Real.cos Real.sin c s = .ok (p s)) ∧
      (∀ s, get_d_dt_value Real.cos Real.sin c s = .ok (v s)) ∧
      ∀ i : Fin 3, HasDerivAt (fun s => (p s)._data i) ((v t)._data i) t := by
  cases c with
  | circle R L =>
    refine ⟨fun s => ⟨L.to_Matrix.mulVec ![R * Real.cos s, R * Real.sin s, 0]⟩,
      fun s => ⟨L.to_Matrix.mulVec ![R * (-Real.sin s), R * Real.cos s, 0]⟩,
      fun s => (get_value_eq Real.cos Real.sin L s).1 R,
      fun s => (get_d_dt_value_eq Real.cos Real.sin L s).1 R, fun i => ?_⟩
    exact hasDerivAt_mulVec L.to_Matrix _ _ (fun _ => 0) _ _ 0 t
      ((Real.hasDerivAt_cos t).const_mul R) ((Real.hasDerivAt_sin t).const_mul R)
      (hasDerivAt_const t 0) i
  | ellipse Rx Ry L =>
    refine ⟨fun s => ⟨L.to_Matrix.mulVec ![Rx * Real.cos s, Ry * Real.sin s, 0]⟩,
      fun s => ⟨L.to_Matrix.mulVec ![Rx * (-Real.sin s), Ry * Real.cos s, 0]⟩,
      fun s => (get_value_eq Real.cos Real.sin L s).2.1 Rx Ry,
      fun s => (get_d_dt_value_eq Real.cos Real.sin L s).2.1 Rx Ry, fun i => ?_⟩
    exact hasDerivAt_mulVec L.to_Matrix _ _ (fun _ => 0) _ _ 0 t
      ((Real.hasDerivAt_cos t).const_mul Rx) ((Real.hasDerivAt_sin t).const_mul Ry)
      (hasDerivAt_const t 0) i
  | helix R h L =>
    refine ⟨fun s => ⟨L.to_Matrix.mulVec ![R * Real.cos s, R * Real.sin s, h * s]⟩,
      fun s => ⟨L.to_Matrix.mulVec ![R * (-Real.sin s), R * Real.cos s, h]⟩,
      fun s => (get_value_eq Real.cos Real.sin L s).2.2 R h,
      fun s => (get_d_dt_value_eq Real.cos Real.sin L s).2.2 R h, fun i => ?_⟩
    have hh : HasDerivAt (fun s : ℝ => h * s) h t := by
      simpa using (hasDerivAt_id t).const_mul h
    exact hasDerivAt_mulVec L.to_Matrix _ _ _ _ _ h t
      ((Real.hasDerivAt_cos t).const_mul R) ((Real.hasDerivAt_sin t).const_mul R) hh i

namespace curve_builder

variable {α : Type}

/-- The outcome of `make_curve` for each variant when the scalars are totally ordered:
the exception exactly when a numeric argument is negative, the constructed curve
otherwise. -/
theorem make_curve_outcome [LinearOrderedRing α]
    (linear_operator : Option (matrix α 3 3)) :
    (∀ R : α,
      (make_curve .CIRCLE [R] linear_operator =
          .error (.build_exception "Curve is not physically correct") ↔ R < 0) ∧
      (0 ≤ R → ∃ L, linear_operator_or_default linear_operator = .ok L ∧
        make_curve .CIRCLE [R] linear_operator = .ok (.circle R L))) ∧
    (∀ Rx Ry : α,
      (make_curve .ELLIPSE [Rx, Ry] linear_operator =
          .error (.build_exception "Curve is not physically correct") ↔ Rx < 0 ∨ Ry < 0) ∧
      (0 ≤ Rx → 0 ≤ Ry → ∃ L, linear_operator_or_default linear_operator = .ok L ∧
        make_curve .ELLIPSE [Rx, Ry] linear_operator = .ok (.ellipse Rx Ry L))) ∧
    (∀ R h : α,
      (make_curve .HELIX [R, h] linear_operator =
          .error (.build_exception "Curve is not physically correct") ↔ R < 0 ∨ h < 0) ∧
      (0 ≤ R → 0 ≤ h → ∃ L, linear_operator_or_default linear_operator = .ok L ∧
        make_curve .HELIX [R, h] linear_operator = .ok (.helix R h L))) := by
  obtain ⟨L, hL, -, -⟩ := linear_operator_or_default_ok linear_operator
  refine ⟨fun R => ?_, fun Rx Ry => ?_, fun R h => ?_⟩
  · by_cases hR : 0 ≤ R
    · have hok : make_curve .CIRCLE [R] linear_operator = .ok (.circle R L) := by
        simp [make_curve, valid_one, hR, circle.ctor, hL, bind, Except.bind, pure, Except.pure]
      exact ⟨by rw [hok]; simp [not_lt.2 hR], fun _ => ⟨L, hL, hok⟩⟩
    · have herr : make_curve .CIRCLE [R] linear_operator =
          .error (.build_exception "Curve is not physically correct") := by
        simp [make_curve, valid_one, hR]
      exact ⟨by rw [herr]; simp [not_le.1 hR], fun h => absurd h hR⟩
  · by_cases hR : 0 ≤ Rx ∧ 0 ≤ Ry
    · have hok : make_curve .ELLIPSE [Rx, Ry] linear_operator = .ok (.ellipse Rx Ry L) := by
        simp [make_curve, valid_two, hR.1, hR.2, ellipse.ctor, hL, bind, Except.bind, pure,
          Except.pure]
      exact ⟨by rw [hok]; simp [not_lt.2 hR.1, not_lt.2 hR.2], fun _ _ => ⟨L, hL, hok⟩⟩
    · have herr : make_curve .ELLIPSE [Rx, Ry] linear_operator =
          .error (.build_exception "Curve is not physically correct") := by
        simp only [make_curve, valid_two]
        rw [if_pos]
        simpa [not_and_or, -not_and, -not_le] using hR
      refine ⟨by rw [herr]; simpa [not_and_or, -not_and] using hR, fun h1 h2 => absurd ⟨h1, h2⟩ hR⟩
  · by_cases hR : 0 ≤ R ∧ 0 ≤ h
    · have hok : make_curve .HELIX [R, h] linear_operator = .ok (.helix R h L) := by
        simp [make_curve, valid_two, hR.1, hR.2, helix.ctor, hL, bind, Except.bind, pure,
          Except.pure]
      exact ⟨by rw [hok]; simp [not_lt.2 hR.1, not_lt.2 hR.2], fun _ _ => ⟨L, hL, hok⟩⟩
    · have herr : make_curve .HELIX [R, h] linear_operator =
          .error (.build_exception "Curve is not physically correct") := by
        simp only [make_curve, valid_two]
        rw [if_pos]
        simpa [not_and_or, -not_and, -not_le] using hR
      refine ⟨by rw [herr]; simpa [not_and_or, -not_and] using hR, fun h1 h2 => absurd ⟨h1, h2⟩ hR⟩

/-- C1, counterexample: `make_curve<CIRCLE>` called with a radius that is NaN throws
`build_exception`, the test `NaN >= 0.0` being false, although no parameter of the call
is negative. -/
theorem nan_radius_is_rejected :
    make_curve .CIRCLE [(double.NaN : double ℚ)] none =
        .error (.build_exception "Curve is not physically correct") ∧
      ¬ ∃ x ∈ [(double.NaN : double ℚ)], x < 0 := by
  refine ⟨rfl, ?_⟩
  rintro ⟨x, hx, hlt⟩
  rw [List.mem_singleton] at hx
  subst hx
  exact hlt

/-- C1, amended: for every variant, every pack of numbers a constructor of the variant
accepts (the shape parameters, or the shape parameters and one more number, which is
converted to the operator) and every optional linear operator, `make_curve` throws
`build_exception` exactly when a number of the pack is NaN or negative. Otherwise it
returns a curve of the variant that holds the shape parameters and the operator passed,
whose entries are not examined. -/
theorem make_curve_throws_iff_negative_or_nan {β : Type} [LinearOrderedRing β]
    (curve : curve_t) (construct_data : List (double β))
    (linear_operator : Option (matrix (double β) 3 3))
    (hpack : make_curve curve construct_data linear_operator ≠
      .error (.ill_formed "no matching constructor")) :
    (make_curve curve construct_data linear_operator =
        .error (.build_exception "Curve is not physically correct") ↔
      ∃ x ∈ construct_data, x = .NaN ∨ x < 0) ∧
    ((¬ ∃ x ∈ construct_data, x = .NaN ∨ x < 0) →
      ∃ c, make_curve curve construct_data linear_operator = .ok c ∧
        c.shape_parameters <+: construct_data ∧
        (∀ M, linear_operator = some M → c._lin_op = M) ∧
        (curve = .CIRCLE → ∃ R L, c = .circle R L) ∧
        (curve = .ELLIPSE → ∃ Rx Ry L, c = .ellipse Rx Ry L) ∧
        (curve = .HELIX → ∃ R h L, c = .helix R h L)) := by
  obtain ⟨hthrow, hreturn⟩ := make_curve_pack curve construct_data linear_operator hpack
  have hiff : _valid construct_data linear_operator = true ↔
      ¬ ∃ x ∈ construct_data, x = .NaN ∨ x < 0 := by
    rw [valid_iff_all]
    constructor
    · rintro h ⟨x, hx, hbad⟩
      exact (double_not_ge_zero x).2 hbad (h x hx)
    · intro h x hx
      by_contra hneg
      exact h ⟨x, hx, (double_not_ge_zero x).1 hneg⟩
  refine ⟨⟨fun hex => ?_, fun hbad => ?_⟩, fun hgood => hreturn (hiff.2 hgood)⟩
  · by_contra hgood
    obtain ⟨c, hc, -⟩ := hreturn (hiff.2 hgood)
    rw [hc] at hex
    cases hex
  · apply hthrow
    cases hv : _valid construct_data linear_operator with
    | false => rfl
    | true => exact absurd hbad (hiff.1 hv)

/-- Witness for C1 as amended: `make_curve<CIRCLE>(1, 2)`, whose second number becomes
the operator. -/
theorem make_curve_throws_iff_negative_or_nan_witness :
    make_curve .CIRCLE [(double.number 1 : double ℤ), .number 2] none ≠
        .error (.ill_formed "no matching constructor") ∧
    (make_curve .CIRCLE [(double.number 1 : double ℤ), .number 2] none =
        .error (.build_exception "Curve is not physically correct") ↔
      ∃ x ∈ [(double.number 1 : double ℤ), .number 2], x = .NaN ∨ x < 0) :=
  ⟨(fun h => by cases h),
    (make_curve_throws_iff_negative_or_nan .CIRCLE
      [(double.number 1 : double ℤ), .number 2] none (fun h => by cases h)).1⟩

/-- C2, counterexample: with `R = 1` and the negative pitch `h = -1` the builder throws
`build_exception`, so no helix is returned. -/
theorem helix_negative_pitch_is_rejected :
    make_curve .HELIX [(1 : ℤ), -1] none =
        .error (.build_exception "Curve is not physically correct") ∧
      ¬ ∃ c, make_curve .HELIX [(1 : ℤ), -1] none = .ok c := by
  have h : make_curve .HELIX [(1 : ℤ), -1] none =
      .error (.build_exception "Curve is not physically correct") := rfl
  exact ⟨h, fun ⟨c, hc⟩ => by rw [h] at hc; cases hc⟩

/-- C2, amended: the validator checks the pitch like any other numeric argument. For
`R >= 0`, `make_curve<HELIX>(R, h)` returns the helix with that pitch when `h >= 0` and
throws `build_exception` when `h < 0`. -/
theorem helix_pitch_is_validated [LinearOrderedRing α] (R h : α)
    (linear_operator : Option (matrix α 3 3)) (hR : 0 ≤ R) :
    (0 ≤ h → ∃ L, linear_operator_or_default linear_operator = .ok L ∧
        make_curve .HELIX [R, h] linear_operator = .ok (.helix R h L)) ∧
    (h < 0 → make_curve .HELIX [R, h] linear_operator =
        .error (.build_exception "Curve is not physically correct")) := by
  obtain ⟨-, -, hx⟩ := make_curve_outcome linear_operator
  exact ⟨fun hh => (hx R h).2 hR hh, fun hh => (hx R h).1.2 (Or.inr hh)⟩

/-- Witness for C2 as amended: `R = 1`, `h = 2`. -/
theorem helix_pitch_is_validated_witness :
    (0 : ℤ) ≤ 1 ∧
    ((0 ≤ (2 : ℤ) → ∃ L, linear_operator_or_default none = .ok L ∧
        make_curve .HELIX [(1 : ℤ), 2] none = .ok (.helix 1 2 L)) ∧
    ((2 : ℤ) < 0 → make_curve .HELIX [(1 : ℤ), 2] none =
        .error (.build_exception "Curve is not physically correct"))) :=
  ⟨by decide, helix_pitch_is_validated 1 2 none (by decide)⟩

/-- What a curve built without a linear operator evaluates to: the builder returns for
parameters that are `>= 0`, and a curve it returns stores the identity. -/
theorem default_operator_outcome :
    (∀ R : ℝ, (0 ≤ R → ∃ c, make_curve .CIRCLE [R] none = .ok c) ∧
      ∀ c, make_curve .CIRCLE [R] none = .ok c → c._lin_op.to_Matrix = 1 ∧ ∀ t : ℝ,
        get_value Real.cos Real.sin c t = .ok ⟨![R * Real.cos t, R * Real.sin t, 0]⟩ ∧
        get_d_dt_value Real.cos Real.sin c t =
          .ok ⟨![-R * Real.sin t, R * Real.cos t, 0]⟩) ∧
    (∀ Rx Ry : ℝ, (0 ≤ Rx → 0 ≤ Ry → ∃ c, make_curve .ELLIPSE [Rx, Ry] none = .ok c) ∧
      ∀ c, make_curve .ELLIPSE [Rx, Ry] none = .ok c → c._lin_op.to_Matrix = 1 ∧ ∀ t : ℝ,
        get_value Real.cos Real.sin c t = .ok ⟨![Rx * Real.cos t, Ry * Real.sin t, 0]⟩ ∧
        get_d_dt_value Real.cos Real.sin c t =
          .ok ⟨![-Rx * Real.sin t, Ry * Real.cos t, 0]⟩) ∧
    (∀ R h : ℝ, (0 ≤ R → 0 ≤ h → ∃ c, make_curve .HELIX [R, h] none = .ok c) ∧
      ∀ c, make_curve .HELIX [R, h] none = .ok c → c._lin_op.to_Matrix = 1 ∧ ∀ t : ℝ,
        get_value Real.cos Real.sin c t =
          .ok ⟨![R * Real.cos t, R * Real.sin t, h * t]⟩ ∧
        get_d_dt_value Real.cos Real.sin c t =
          .ok ⟨![-R * Real.sin t, R * Real.cos t, h]⟩) := by
  obtain ⟨L, hL, -, hI⟩ := linear_operator_or_default_ok (α := ℝ) none
  have hI := hI rfl
  obtain ⟨h1, h2, h3⟩ := make_curve_outcome (α := ℝ) none
  refine ⟨fun R => ⟨fun hR => ?_, fun c hc => ?_⟩, fun Rx Ry => ⟨fun hx hy => ?_, fun c hc => ?_⟩,
    fun R h => ⟨fun hR hh => ?_, fun c hc => ?_⟩⟩
  · obtain ⟨M, -, hM⟩ := (h1 R).2 hR
    exact ⟨_, hM⟩
  · have hR : 0 ≤ R := by
      by_contra hneg
      rw [(h1 R).1.2 (not_le.1 hneg)] at hc
      cases hc
    obtain ⟨M, hM, hcM⟩ := (h1 R).2 hR
    have e : M = L := Except.ok.inj (hM.symm.trans hL)
    rw [e] at hcM
    obtain rfl : interface_curve.circle R L = c := Except.ok.inj (hcM.symm.trans hc)
    refine ⟨hI, fun t => ⟨?_, ?_⟩⟩
    · rw [(get_value_eq Real.cos Real.sin L t).1 R, hI, Matrix.one_mulVec]
    · rw [(get_d_dt_value_eq Real.cos Real.sin L t).1 R, hI, Matrix.one_mulVec, neg_mul,
        mul_neg]
  · obtain ⟨M, -, hM⟩ := (h2 Rx Ry).2 hx hy
    exact ⟨_, hM⟩
  · have hR : 0 ≤ Rx ∧ 0 ≤ Ry := by
      by_contra hneg
      rw [(h2 Rx Ry).1.2 (by simpa [not_and_or, -not_and] using hneg)] at hc
      cases hc
    obtain ⟨M, hM, hcM⟩ := (h2 Rx Ry).2 hR.1 hR.2
    have e : M = L := Except.ok.inj (hM.symm.trans hL)
    rw [e] at hcM
    obtain rfl : interface_curve.ellipse Rx Ry L = c := Except.ok.inj (hcM.symm.trans hc)
    refine ⟨hI, fun t => ⟨?_, ?_⟩⟩
    · rw [(get_value_eq Real.cos Real.sin L t).2.1 Rx Ry, hI, Matrix.one_mulVec]
    · rw [(get_d_dt_value_eq Real.cos Real.sin L t).2.1 Rx Ry, hI, Matrix.one_mulVec,
        neg_mul, mul_neg]
  · obtain ⟨M, -, hM⟩ := (h3 R h).2 hR hh
    exact ⟨_, hM⟩
  · have hR : 0 ≤ R ∧ 0 ≤ h := by
      by_contra hneg
      rw [(h3 R h).1.2 (by simpa [not_and_or, -not_and] using hneg)] at hc
      cases hc
    obtain ⟨M, hM, hcM⟩ := (h3 R h).2 hR.1 hR.2
    have e : M = L := Except.ok.inj (hM.symm.trans hL)
    rw [e] at hcM
    obtain rfl : interface_curve.helix R h L = c := Except.ok.inj (hcM.symm.trans hc)
    refine ⟨hI, fun t => ⟨?_, ?_⟩⟩
    · rw [(get_value_eq Real.cos Real.sin L t).2.2 R h, hI, Matrix.one_mulVec]
    · rw [(get_d_dt_value_eq Real.cos Real.sin L t).2.2 R h, hI, Matrix.one_mulVec,
        neg_mul, mul_neg]

/-- C5: a curve built without a linear operator stores the identity operator, so it
evaluates to the raw point and velocity: for every `R` and `t`, the curve
`make_curve<CIRCLE>(R)` returns (it returns one for `R >= 0`) evaluates to
`(R cos t, R sin t, 0)` and `(-R sin t, R cos t, 0)`, and likewise for the ellipse and
the helix. In particular the circle of radius 5 at `t = 0` gives `(5, 0, 0)` and
`(0, 5, 0)`, and the ellipse with `Rx = 3`, `Ry = 2` at `t = pi / 2` gives `(0, 2, 0)`
and `(-3, 0, 0)`. -/
theorem default_operator_is_identity :
    (∀ R : ℝ, (0 ≤ R → ∃ c, make_curve .CIRCLE [R] none = .ok c) ∧
      ∀ c, make_curve .CIRCLE [R] none = .ok c → c._lin_op.to_Matrix = 1 ∧ ∀ t : ℝ,
        get_value Real.cos Real.sin c t = .ok ⟨![R * Real.cos t, R * Real.sin t, 0]⟩ ∧
        get_d_dt_value Real.cos Real.sin c t =
          .ok ⟨![-R * Real.sin t, R * Real.cos t, 0]⟩) ∧
    (∀ Rx Ry : ℝ, (0 ≤ Rx → 0 ≤ Ry → ∃ c, make_curve .ELLIPSE [Rx, Ry] none = .ok c) ∧
      ∀ c, make_curve .ELLIPSE [Rx, Ry] none = .ok c → c._lin_op.to_Matrix = 1 ∧ ∀ t : ℝ,
        get_value Real.cos Real.sin c t = .ok ⟨![Rx * Real.cos t, Ry * Real.sin t, 0]⟩ ∧
        get_d_dt_value Real.cos Real.sin c t =
          .ok ⟨![-Rx * Real.sin t, Ry * Real.cos t, 0]⟩) ∧
    (∀ R h : ℝ, (0 ≤ R → 0 ≤ h → ∃ c, make_curve .HELIX [R, h] none = .ok c) ∧
      ∀ c, make_curve .HELIX [R, h] none = .ok c → c._lin_op.to_Matrix = 1 ∧ ∀ t : ℝ,
        get_value Real.cos Real.sin c t =
          .ok ⟨![R * Real.cos t, R * Real.sin t, h * t]⟩ ∧
        get_d_dt_value Real.cos Real.sin c t =
          .ok ⟨![-R * Real.sin t, R * Real.cos t, h]⟩) ∧
    (∃ c, make_curve .CIRCLE [(5 : ℝ)] none = .ok c ∧
      get_value Real.cos Real.sin c 0 = .ok ⟨![5, 0, 0]⟩ ∧
      get_d_dt_value Real.cos Real.sin c 0 = .ok ⟨![0, 5, 0]⟩) ∧
    (∃ c, make_curve .ELLIPSE [(3 : ℝ), 2] none = .ok c ∧
      get_value Real.cos Real.sin c (Real.pi / 2) = .ok ⟨![0, 2, 0]⟩ ∧
      get_d_dt_value Real.cos Real.sin c (Real.pi / 2) = .ok ⟨![-3, 0, 0]⟩) := by
  obtain ⟨h1, h2, h3⟩ := default_operator_outcome
  refine ⟨h1, h2, h3, ?_, ?_⟩
  · obtain ⟨c, hc⟩ := (h1 5).1 (by norm_num)
    obtain ⟨-, hev⟩ := (h1 5).2 c hc
    refine ⟨c, hc, ?_, ?_⟩
    · rw [(hev 0).1]; simp
    · rw [(hev 0).2]; simp
  · obtain ⟨c, hc⟩ := (h2 3 2).1 (by norm_num) (by norm_num)
    obtain ⟨-, hev⟩ := (h2 3 2).2 c hc
    refine ⟨c, hc, ?_, ?_⟩
    · rw [(hev (Real.pi / 2)).1]; simp
    · rw [(hev (Real.pi / 2)).2]; simp

theorem RAND_GEN_range (rand : Nat → Nat) (calls : Nat) :
    1 ≤ RAND_GEN rand calls ∧ RAND_GEN rand calls ≤ 50 := by
  have := Nat.mod_lt (rand calls) (by decide : 0 < 50)
  unfold RAND_GEN
  omega

/-- The iterator loop overwrites each of the nine elements with a drawn value. -/
theorem random_linear_operator_ok [Ring α] (rand : Nat → Nat) (calls : Nat) :
    ∃ m : matrix α 3 3, random_linear_operator rand calls = .ok (m, calls + 9) ∧
      ∀ idx : Fin (3 * 3), m._data idx = (RAND_GEN rand (calls + idx.val) : α) := by
  obtain ⟨m0, hm0, -⟩ := matrix_ctor_entry (α := α) (r := 3) (c := 3)
  obtain ⟨u, hu, hP⟩ := for_range_invariant
    (fun i (st : matrix α 3 3 × Nat) => st.2 = calls + i ∧
      ∀ idx : Fin (3 * 3), idx.val < i → st.1._data idx = (RAND_GEN rand (calls + idx.val) : α))
    (3 * 3) (fun i (state : matrix α 3 3 × Nat) => do
      let m ← state.1.set i (RAND_GEN rand state.2 : α)
      pure (m, state.2 + 1)) (m0, calls)
    ⟨rfl, fun idx h => absurd h (Nat.not_lt_zero _)⟩
    (by
      intro i hi t ht
      obtain ⟨hcalls, hent⟩ := ht
      refine ⟨(⟨Function.update t.1._data ⟨i, hi⟩ (RAND_GEN rand t.2 : α)⟩, t.2 + 1), ?_, ?_, ?_⟩
      · simp [matrix.set, hi, bind, Except.bind, pure, Except.pure]
      · show t.2 + 1 = calls + (i + 1)
        omega
      · intro idx hidx
        show Function.update t.1._data _ _ idx = _
        rw [Function.update_apply]
        by_cases h : idx = ⟨i, hi⟩
        · subst h; simp [hcalls]
        · have hne : idx.val ≠ i := fun e => h (Fin.ext e)
          rw [if_neg h]
          exact hent idx (by omega))
  obtain ⟨hcalls, hent⟩ := hP
  refine ⟨u.1, ?_, fun idx => hent idx idx.isLt⟩
  unfold random_linear_operator
  rw [hm0]
  refine hu.trans ?_
  congr 1
  exact Prod.ext rfl hcalls

/-- C6: whatever sequence `std::rand()` returns, both random factories return a curve
whose shape parameters are integers of the range 1 to 50, and every one of the nine
elements of the random linear operator is an integer of that range. -/
theorem random_values_in_range [Ring α] (rand : Nat → Nat) (calls : Nat) :
    (∃ c n, make_random_curve (α := α) rand calls = .ok (c, n) ∧
      ∀ x ∈ c.shape_parameters, ∃ v : Nat, 1 ≤ v ∧ v ≤ 50 ∧ x = (v : α)) ∧
    (∃ c n, make_random_curve_with_random_linear_operator (α := α) rand calls = .ok (c, n) ∧
      (∀ x ∈ c.shape_parameters, ∃ v : Nat, 1 ≤ v ∧ v ≤ 50 ∧ x = (v : α)) ∧
      ∀ idx, ∃ v : Nat, 1 ≤ v ∧ v ≤ 50 ∧ c._lin_op._data idx = (v : α)) := by
  have hr := RAND_GEN_range rand
  have h3 := Nat.mod_lt (rand calls) (by decide : 0 < 3)
  constructor
  · obtain ⟨L, hL, -⟩ := linear_operator_or_default_ok (α := α) none
    unfold make_random_curve
    generalize rand calls % 3 = k at h3
    interval_cases k
    · refine ⟨.circle (RAND_GEN rand (calls + 1) : α) L, calls + 2, ?_, ?_⟩
      · simp [circle.ctor, hL, bind, Except.bind, pure, Except.pure]
      · intro x hx
        simp only [interface_curve.shape_parameters, List.mem_singleton] at hx
        exact ⟨_, (hr _).1, (hr _).2, hx⟩
    · refine ⟨.ellipse (RAND_GEN rand (calls + 1) : α) (RAND_GEN rand (calls + 2) : α) L,
        calls + 3, ?_, ?_⟩
      · simp [ellipse.ctor, hL, bind, Except.bind, pure, Except.pure]
      · intro x hx
        simp only [interface_curve.shape_parameters, List.mem_cons, List.mem_singleton,
          List.mem_nil_iff, or_false] at hx
        rcases hx with hx | hx
        · exact ⟨_, (hr _).1, (hr _).2, hx⟩
        · exact ⟨_, (hr _).1, (hr _).2, hx⟩
    · refine ⟨.helix (RAND_GEN rand (calls + 1) : α) (RAND_GEN rand (calls + 2) : α) L,
        calls + 3, ?_, ?_⟩
      · simp [helix.ctor, hL, bind, Except.bind, pure, Except.pure]
      · intro x hx
        simp only [interface_curve.shape_parameters, List.mem_cons, List.mem_singleton,
          List.mem_nil_iff, or_false] at hx
        rcases hx with hx | hx
        · exact ⟨_, (hr _).1, (hr _).2, hx⟩
        · exact ⟨_, (hr _).1, (hr _).2, hx⟩
  · obtain ⟨m, hm, hent⟩ := random_linear_operator_ok (α := α) rand (calls + 1)
    have hop : ∀ idx, ∃ v : Nat, 1 ≤ v ∧ v ≤ 50 ∧ m._data idx = (v : α) :=
      fun idx => ⟨_, (hr _).1, (hr _).2, hent idx⟩
    unfold make_random_curve_with_random_linear_operator
    rw [hm]
    simp only [bind, Except.bind]
    generalize rand calls % 3 = k at h3
    interval_cases k
    · refine ⟨.circle (RAND_GEN rand (calls + 1 + 9) : α) m, calls + 1 + 9 + 1, ?_, ?_, hop⟩
      · simp [circle.ctor, linear_operator_or_default, bind, Except.bind, pure, Except.pure]
      · intro x hx
        simp only [interface_curve.shape_parameters, List.mem_singleton] at hx
        exact ⟨_, (hr _).1, (hr _).2, hx⟩
    · refine ⟨.ellipse (RAND_GEN rand (calls + 1 + 9) : α)
        (RAND_GEN rand (calls + 1 + 9 + 1) : α) m, calls + 1 + 9 + 2, ?_, ?_, hop⟩
      · simp [ellipse.ctor, linear_operator_or_default, bind, Except.bind, pure, Except.pure]
      · intro x hx
        simp only [interface_curve.shape_parameters, List.mem_cons, List.mem_singleton,
          List.mem_nil_iff, or_false] at hx
        rcases hx with hx | hx
        · exact ⟨_, (hr _).1, (hr _).2, hx⟩
        · exact ⟨_, (hr _).1, (hr _).2, hx⟩
    · refine ⟨.helix (RAND_GEN rand (calls + 1 + 9) : α)
        (RAND_GEN rand (calls + 1 + 9 + 1) : α) m, calls + 1 + 9 + 2, ?_, ?_, hop⟩
      · simp [helix.ctor, linear_operator_or_default, bind, Except.bind, pure, Except.pure]
      · intro x hx
        simp only [interface_curve.shape_parameters, List.mem_cons, List.mem_singleton,
          List.mem_nil_iff, or_false] at hx
        rcases hx with hx | hx
        · exact ⟨_, (hr _).1, (hr _).2, hx⟩
        · exact ⟨_, (hr _).1, (hr _).2, hx⟩

end curve_builder

end curves

/-! ## Constructors from lists, keys, and the remaining operations -/

namespace mv

section fill_lemmas

variable {α : Type}

/-- What `_fill` leaves in the storage of a matrix: the list from `index` on. -/
theorem matrix_fill_data {r c : Nat} (l : List α) :
    ∀ (index : Nat) (m : matrix α r c), l ≠ [] → index + l.length ≤ r * c →
      ∃ u, matrix._fill index l m = .ok u ∧
        ∀ idx : Fin (r * c), u._data idx =
          if index ≤ idx.val then l.getD (idx.val - index) (m._data idx) else m._data idx := by
  induction l with
  | nil => intro _ _ h; exact absurd rfl h
  | cons first other ih =>
    intro index m _ hlen
    have hidx : index < r * c := by
      simp only [List.length_cons] at hlen; omega
    cases other with
    | nil =>
      refine ⟨⟨Function.update m._data ⟨index, hidx⟩ first⟩, by simp [matrix._fill, matrix.set, hidx], ?_⟩
      intro idx
      show Function.update m._data _ first idx = _
      rw [Function.update_apply]
      by_cases h : idx = ⟨index, hidx⟩
      · subst h; simp
      · have hne : idx.val ≠ index := fun e => h (Fin.ext e)
        rw [if_neg h]
        split_ifs with hle
        · obtain ⟨k, hk⟩ : ∃ k, idx.val - index = k + 1 := ⟨idx.val - index - 1, by omega⟩
          rw [hk]; rfl
        · rfl
    | cons second rest =>
      have hlt : (second :: rest).length < r * c := by
        simp only [List.length_cons] at hlen ⊢; omega
      obtain ⟨u, hu, hP⟩ := ih (index + 1) ⟨Function.update m._data ⟨index, hidx⟩ first⟩
        (by simp) (by simp only [List.length_cons] at hlen ⊢; omega)
      refine ⟨u, ?_, ?_⟩
      · rw [matrix._fill, if_pos hlt]
        · simp only [matrix.set, hidx, dite_true, Except.bind]
          exact hu
        · intro h; cases h
      · intro idx
        rw [hP idx]
        show (if index + 1 ≤ idx.val then
            (second :: rest).getD (idx.val - (index + 1)) (Function.update m._data _ first idx)
          else Function.update m._data _ first idx) = _
        rw [Function.update_apply]
        by_cases h : idx = ⟨index, hidx⟩
        · subst h; simp
        · have hne : idx.val ≠ index := fun e => h (Fin.ext e)
          rw [if_neg h]
          by_cases hle : index ≤ idx.val
          · obtain ⟨k, hk⟩ : ∃ k, idx.val - index = k + 1 := ⟨idx.val - index - 1, by omega⟩
            have hk2 : idx.val - (index + 1) = k := by omega
            rw [if_pos (by omega : index + 1 ≤ idx.val), if_pos hle, hk, hk2]
            rfl
          · rw [if_neg (by omega), if_neg hle]

/-- What `_fill` leaves in the storage of a vector: the list from `index` on. -/
theorem vector_fill_data {d : Nat} (l : List α) :
    ∀ (index : Nat) (v : vector α d), l ≠ [] → index + l.length ≤ d →
      ∃ u, vector._fill index l v = .ok u ∧
        ∀ idx : Fin d, u._data idx =
          if index ≤ idx.val then l.getD (idx.val - index) (v._data idx) else v._data idx := by
  induction l with
  | nil => intro _ _ h; exact absurd rfl h
  | cons first other ih =>
    intro index v _ hlen
    have hidx : index < d := by
      simp only [List.length_cons] at hlen; omega
    cases other with
    | nil =>
      refine ⟨⟨Function.update v._data ⟨index, hidx⟩ first⟩, by simp [vector._fill, vector.set, hidx], ?_⟩
      intro idx
      show Function.update v._data _ first idx = _
      rw [Function.update_apply]
      by_cases h : idx = ⟨index, hidx⟩
      · subst h; simp
      · have hne : idx.val ≠ index := fun e => h (Fin.ext e)
        rw [if_neg h]
        split_ifs with hle
        · obtain ⟨k, hk⟩ : ∃ k, idx.val - index = k + 1 := ⟨idx.val - index - 1, by omega⟩
          rw [hk]; rfl
        · rfl
    | cons second rest =>
      have hlt : (second :: rest).length < d := by
        simp only [List.length_cons] at hlen ⊢; omega
      obtain ⟨u, hu, hP⟩ := ih (index + 1) ⟨Function.update v._data ⟨index, hidx⟩ first⟩
        (by simp) (by simp only [List.length_cons] at hlen ⊢; omega)
      refine ⟨u, ?_, ?_⟩
      · rw [vector._fill, if_pos hlt]
        · simp only [vector.set, hidx, dite_true, Except.bind]
          exact hu
        · intro h; cases h
      · intro idx
        rw [hP idx]
        show (if index + 1 ≤ idx.val then
            (second :: rest).getD (idx.val - (index + 1)) (Function.update v._data _ first idx)
          else Function.update v._data _ first idx) = _
        rw [Function.update_apply]
        by_cases h : idx = ⟨index, hidx⟩
        · subst h; simp
        · have hne : idx.val ≠ index := fun e => h (Fin.ext e)
          rw [if_neg h]
          by_cases hle : index ≤ idx.val
          · obtain ⟨k, hk⟩ : ∃ k, idx.val - index = k + 1 := ⟨idx.val - index - 1, by omega⟩
            have hk2 : idx.val - (index + 1) = k := by omega
            rw [if_pos (by omega : index + 1 ≤ idx.val), if_pos hle, hk, hk2]
            rfl
          · rw [if_neg (by omega), if_neg hle]

/-- The variadic constructor of a matrix accepts a list of one to `_row * _column`
elements and stores it in order, the remaining elements keeping their zero. -/
theorem matrix_ctor_values_data [Zero α] {r c : Nat} (l : List α) (hne : l ≠ [])
    (hlen : l.length ≤ r * c) :
    ∃ u : matrix α r c, matrix.ctor_values l = .ok u ∧
      ∀ idx : Fin (r * c), u._data idx = l.getD idx.val 0 := by
  obtain ⟨u, hu, hP⟩ := matrix_fill_data l 0 (matrix.zeroed : matrix α r c) hne (by omega)
  refine ⟨u, hu, fun idx => ?_⟩
  rw [hP idx, if_pos (Nat.zero_le _)]
  rfl

/-- The variadic constructor of a vector accepts a list of one to `_dim` elements and
stores it in order, the remaining elements keeping their zero. -/
theorem vector_ctor_values_data [Zero α] {d : Nat} (l : List α) (hne : l ≠ [])
    (hlen : l.length ≤ d) :
    ∃ u : vector α d, vector.ctor_values l = .ok u ∧
      ∀ idx : Fin d, u._data idx = l.getD idx.val 0 := by
  obtain ⟨u, hu, hP⟩ := vector_fill_data l 0 (vector.ctor : vector α d) hne (by omega)
  refine ⟨u, hu, fun idx => ?_⟩
  rw [hP idx, if_pos (Nat.zero_le _)]
  rfl

/-- The variadic constructors reject a list longer than the storage. -/
theorem ctor_values_overflow [Zero α] (l : List α) :
    (∀ d : Nat, 0 < d → d < l.length →
      (vector.ctor_values l : outcome (vector α d)) = .error (.ill_formed "list overflow")) ∧
    (∀ r c : Nat, 0 < r * c → r * c < l.length →
      (matrix.ctor_values l : outcome (matrix α r c)) =
        .error (.ill_formed "list overflow")) := by
  constructor
  · intro d hd hlen
    match l, hlen with
    | [], h => exact absurd h (Nat.not_lt_zero _)
    | [x], h => simp only [List.length_cons, List.length_nil] at h; omega
    | first :: second :: rest, h =>
      have hnot : ¬ (second :: rest).length < d := by
        simp only [List.length_cons] at h ⊢; omega
      show vector._fill 0 (first :: second :: rest) vector.ctor = _
      rw [vector._fill, if_neg hnot]
      intro h; cases h
  · intro r c hd hlen
    match l, hlen with
    | [], h => exact absurd h (Nat.not_lt_zero _)
    | [x], h => simp only [List.length_cons, List.length_nil] at h; omega
    | first :: second :: rest, h =>
      have hnot : ¬ (second :: rest).length < r * c := by
        simp only [List.length_cons] at h ⊢; omega
      show matrix._fill 0 (first :: second :: rest) matrix.zeroed = _
      rw [matrix._fill, if_neg hnot]
      intro h; cases h

end fill_lemmas

section loop_fill

variable {α : Type}

/-- A double loop whose body writes `f i j` at `[i][j]` leaves `f` in the matrix. -/
theorem matrix_fill_loop [Zero α] {r c : Nat} (f : Nat → Nat → α)
    (body : Nat → Nat → matrix α r c → outcome (matrix α r c))
    (hbody : ∀ i j, i < r → j < c → ∀ m, body i j m = m.set_at i j (f i j))
    (s : matrix α r c) :
    ∃ u, for_range r (fun i m => for_range c (fun j m => body i j m) m) s = .ok u ∧
      ∀ i j, i < r → j < c → u.entry i j = f i j := by
  have hrow : ∀ i, i < r → ∀ t : matrix α r c,
      ∃ u, for_range c (fun j m => body i j m) t = .ok u ∧
        ∀ k l, k < r → l < c → u.entry k l = if k = i then f i l else t.entry k l := by
    intro i hi t
    obtain ⟨u, hu, hP⟩ := for_range_invariant
      (fun n (m : matrix α r c) => ∀ k l, k < r → l < c →
        m.entry k l = if k = i ∧ l < n then f i l else t.entry k l)
      c (fun j m => body i j m) t
      (by intro k l _ _; simp)
      (by
        intro n hn m hm
        obtain ⟨u, hu, hu'⟩ := matrix_set_at_entry m hi hn (f i n)
        refine ⟨u, (hbody i n hi hn m).trans hu, ?_⟩
        intro k l hk hl
        rw [hu' k l hk hl]
        by_cases h : k = i ∧ l = n
        · obtain ⟨rfl, rfl⟩ := h
          simp
        · rw [if_neg h, hm k l hk hl]
          have : (k = i ∧ l < n + 1) ↔ (k = i ∧ l < n) := by omega
          simp only [this])
    refine ⟨u, hu, ?_⟩
    intro k l hk hl
    rw [hP k l hk hl]
    simp only [hl, and_true]
  obtain ⟨u, hu, hP⟩ := for_range_invariant
    (fun n (m : matrix α r c) => ∀ k l, k < r → l < c →
      m.entry k l = if k < n then f k l else s.entry k l)
    r (fun i m => for_range c (fun j m => body i j m) m) s
    (by intro k l _ _; simp)
    (by
      intro n hn m hm
      obtain ⟨u, hu, hu'⟩ := hrow n hn m
      refine ⟨u, hu, ?_⟩
      intro k l hk hl
      rw [hu' k l hk hl]
      by_cases h : k = n
      · subst h; simp
      · have : (k < n + 1) ↔ k < n := by omega
        rw [if_neg h, hm k l hk hl]
        simp only [this])
  exact ⟨u, hu, fun i j hi hj => by rw [hP i j hi hj, if_pos hi]⟩

/-- A loop whose body writes `f i` at `[i]`, for `i` below `n`, leaves `f` there and the
other elements as they were. -/
theorem vector_fill_loop [Zero α] {d : Nat} (n : Nat) (hn : n ≤ d) (f : Nat → α)
    (body : Nat → vector α d → outcome (vector α d))
    (hbody : ∀ i, i < n → ∀ v, body i v = v.set i (f i)) (s : vector α d) :
    ∃ u, for_range n body s = .ok u ∧
      ∀ k, k < d → u.entry k = if k < n then f k else s.entry k := by
  refine for_range_invariant
    (fun m (v : vector α d) => ∀ k, k < d → v.entry k = if k < m then f k else s.entry k)
    n body s (by intro k _; simp) ?_
  intro i hi v hv
  obtain ⟨u, hu, hu'⟩ := vector_set_entry v (Nat.lt_of_lt_of_le hi hn) (f i)
  refine ⟨u, (hbody i hi v).trans hu, ?_⟩
  intro k hk
  rw [hu' k hk]
  by_cases h : k = i
  · subst h; simp
  · have : (k < i + 1) ↔ k < i := by omega
    rw [if_neg h, hv k hk]
    simp only [this]

/-- The function `transpose` returns the transposed matrix. -/
theorem transpose_to_Matrix [Zero α] [One α] {n : Nat} (M : matrix α n n) :
    ∃ u, transpose M = .ok u ∧ u.to_Matrix = M.to_Matrix.transpose := by
  obtain ⟨m0, hm0, -⟩ := matrix_ctor_entry (α := α) (r := n) (c := n)
  obtain ⟨u, hu, hP⟩ := matrix_fill_loop (fun i j => M.entry j i)
    (fun i j (result : matrix α n n) => do
      let x ← M.get_at j i
      result.set_at i j x)
    (by
      intro i j hi hj m
      show (M.get_at j i >>= fun x => m.set_at i j x) = _
      rw [matrix_get_at_entry M hj hi]
      rfl) m0
  refine ⟨u, ?_, ?_⟩
  · unfold transpose
    rw [hm0]
    exact hu
  · funext i j
    exact hP i.val j.val i.isLt j.isLt

/-- The function `operator+` on vectors returns the componentwise sum. -/
theorem add_entry [Add α] [Zero α] {d : Nat} (a b : vector α d) :
    ∃ u, add a b = .ok u ∧ ∀ k, k < d → u.entry k = a.entry k + b.entry k := by
  obtain ⟨u, hu, hP⟩ := vector_fill_loop d (Nat.le_refl d) (fun i => a.entry i + b.entry i)
    (fun i (result : vector α d) => do
      let x ← a.get i
      let y ← b.get i
      result.set i (x + y))
    (by
      intro i hi v
      show (a.get i >>= fun x => b.get i >>= fun y => v.set i (x + y)) = _
      rw [vector_get_entry a hi, vector_get_entry b hi]
      rfl) vector.ctor
  exact ⟨u, hu, fun k hk => by rw [hP k hk, if_pos hk]⟩

/-- The function `high` on vectors returns the vector extended by `lost`. -/
theorem high_entry [Zero α] {d : Nat} (v : vector α d) (lost : α) :
    ∃ u, high v lost = .ok u ∧
      ∀ k, k < d + 1 → u.entry k = if k < d then v.entry k else lost := by
  obtain ⟨w, hw, hP⟩ := vector_fill_loop d (Nat.le_succ d) (fun i => v.entry i)
    (fun i (result : vector α (d + 1)) => do
      let x ← v.get i
      result.set i x)
    (by
      intro i hi t
      show (v.get i >>= fun x => t.set i x) = _
      rw [vector_get_entry v hi]
      rfl) vector.ctor
  obtain ⟨u, hu, hu'⟩ := vector_set_entry w (Nat.lt_succ_self d) lost
  refine ⟨u, ?_, ?_⟩
  · unfold high
    rw [hw]
    exact hu
  · intro k hk
    rw [hu' k hk]
    by_cases h : k = d
    · subst h; simp
    · rw [if_neg h, hP k hk, if_pos (by omega), if_pos (by omega)]

/-- The function `dot` reads `result` before anything is assigned to it, whatever the
vectors and the dimension. -/
theorem dot_reads_indeterminate [Semiring α] {d : Nat} (a b : vector α d) :
    dot a b = .error .indeterminate_value := by
  have h : ∀ n, n ≤ d → for_range n (fun i (result : Option α) => do
        let x ← a.get i
        let y ← b.get i
        let r ← read_local result
        pure (some (r + x * y))) none =
      if n = 0 then .ok none else .error .indeterminate_value := by
    intro n
    induction n with
    | zero => intro _; rfl
    | succ n ih =>
      intro hn
      have hlt : n < d := hn
      rw [for_range_succ, ih (Nat.le_of_lt hlt), if_neg (Nat.succ_ne_zero n)]
      by_cases h0 : n = 0
      · rw [if_pos h0]
        show (a.get n >>= fun x => b.get n >>= fun y =>
          read_local (none : Option α) >>= fun r => pure (some (r + x * y))) = _
        rw [vector_get_entry a hlt, vector_get_entry b hlt]
        rfl
      · rw [if_neg h0]; rfl
  unfold dot
  show (for_range d _ none >>= fun result => read_local result) = _
  rw [h d (Nat.le_refl d)]
  by_cases h0 : d = 0
  · rw [if_pos h0]; rfl
  · rw [if_neg h0]; rfl

end loop_fill

section key_lemmas

variable {α : Type}

theorem vector_hash_axis {d : Nat} (v : vector α d) :
    ∀ p ∈ vector.axis_names, v._hash p.1 = p.2 := by
  intro p hp
  simp only [vector.axis_names, List.mem_cons, List.mem_singleton, List.mem_nil_iff,
    or_false] at hp
  rcases hp with rfl | rfl | rfl | rfl <;> simp [vector._hash]

theorem vector_hash_unknown {d : Nat} (v : vector α d) (key : String)
    (h : ∀ p ∈ vector.axis_names, p.1 ≠ key) : v._hash key = d := by
  have hx : key ≠ "x" := fun e => h ("x", 0) (by simp [vector.axis_names]) e.symm
  have hy : key ≠ "y" := fun e => h ("y", 1) (by simp [vector.axis_names]) e.symm
  have hz : key ≠ "z" := fun e => h ("z", 2) (by simp [vector.axis_names]) e.symm
  have hw : key ≠ "w" := fun e => h ("w", 3) (by simp [vector.axis_names]) e.symm
  simp [vector._hash, hx, hy, hz, hw]

theorem matrix_hash_axis {r c : Nat} (m : matrix α r c) :
    ∀ p ∈ matrix.axis_keys, m._hash p.1 = p.2.1 * c + p.2.2 := by
  intro p hp
  simp only [matrix.axis_keys, List.mem_cons, List.mem_singleton, List.mem_nil_iff,
    or_false] at hp
  rcases hp with rfl | rfl | rfl | rfl | rfl | rfl | rfl | rfl | rfl | rfl | rfl | rfl |
    rfl | rfl | rfl | rfl <;> simp [matrix._hash] <;> omega

theorem matrix_hash_unknown {r c : Nat} (m : matrix α r c) (key : String)
    (h : ∀ p ∈ matrix.axis_keys, p.1 ≠ key) : m._hash key = r * c := by
  have hk : ∀ (s : String) (i j : Nat), (s, i, j) ∈ matrix.axis_keys → key ≠ s :=
    fun s i j hmem e => h (s, i, j) hmem e.symm
  simp [matrix._hash,
    hk "x" 0 0 (by simp [matrix.axis_keys]), hk "xy" 0 1 (by simp [matrix.axis_keys]),
    hk "xz" 0 2 (by simp [matrix.axis_keys]), hk "xw" 0 3 (by simp [matrix.axis_keys]),
    hk "yx" 1 0 (by simp [matrix.axis_keys]), hk "y" 1 1 (by simp [matrix.axis_keys]),
    hk "yz" 1 2 (by simp [matrix.axis_keys]), hk "yw" 1 3 (by simp [matrix.axis_keys]),
    hk "zx" 2 0 (by simp [matrix.axis_keys]), hk "zy" 2 1 (by simp [matrix.axis_keys]),
    hk "z" 2 2 (by simp [matrix.axis_keys]), hk "zw" 2 3 (by simp [matrix.axis_keys]),
    hk "wx" 3 0 (by simp [matrix.axis_keys]), hk "wy" 3 1 (by simp [matrix.axis_keys]),
    hk "wz" 3 2 (by simp [matrix.axis_keys]), hk "w" 3 3 (by simp [matrix.axis_keys])]

theorem vec3_keys [Zero α] (v : vector α 3) :
    v.key "x" = .ok (v.entry 0) ∧ v.key "y" = .ok (v.entry 1) ∧ v.key "z" = .ok (v.entry 2) := by
  refine ⟨?_, ?_, ?_⟩ <;> simp [vector.key, vector._hash, vector.get, vector.entry]

end key_lemmas

section cross_lemmas

variable {α : Type}

/-- The variadic constructor of a matrix, element by element. -/
theorem matrix_ctor_values_entry [Zero α] {r c : Nat} (l : List α) (hne : l ≠ [])
    (hlen : l.length ≤ r * c) :
    ∃ u : matrix α r c, matrix.ctor_values l = .ok u ∧
      ∀ i j, i < r → j < c → u.entry i j = l.getD (i * c + j) 0 := by
  obtain ⟨u, hu, hP⟩ := matrix_ctor_values_data (r := r) (c := c) l hne hlen
  exact ⟨u, hu, fun i j hi hj => by rw [matrix_entry_eq u hi hj, hP]⟩

/-- The variadic constructor of a vector, element by element. -/
theorem vector_ctor_values_entry [Zero α] {d : Nat} (l : List α) (hne : l ≠ [])
    (hlen : l.length ≤ d) :
    ∃ u : vector α d, vector.ctor_values l = .ok u ∧
      ∀ i, i < d → u.entry i = l.getD i 0 := by
  obtain ⟨u, hu, hP⟩ := vector_ctor_values_data (d := d) l hne hlen
  exact ⟨u, hu, fun i hi => by rw [vector_entry_eq u hi, hP]⟩

/-- The 2 by 2 matrix listed as `p, q, r, s` has `det` equal to `p * s - q * r`. -/
theorem det_of_four [CommRing α] (p q r s : α) :
    ∃ u : matrix α 2 2, matrix.ctor_values [p, q, r, s] = .ok u ∧
      det 2 2 u = .ok (p * s - q * r) := by
  obtain ⟨u, hu, hP⟩ := matrix_ctor_values_entry (α := α) (r := 2) (c := 2) [p, q, r, s]
    (by simp) (by simp)
  refine ⟨u, hu, ?_⟩
  rw [det_two_by_two, hP 0 0 (by decide) (by decide), hP 0 1 (by decide) (by decide),
    hP 1 0 (by decide) (by decide), hP 1 1 (by decide) (by decide)]
  rfl

theorem vec3_ctor_values_entry [Zero α] (p q r : α) :
    ∃ u : vector α 3, vector.ctor_values [p, q, r] = .ok u ∧
      u.entry 0 = p ∧ u.entry 1 = q ∧ u.entry 2 = r := by
  obtain ⟨u, hu, hP⟩ := vector_ctor_values_entry (α := α) (d := 3) [p, q, r] (by simp) (by simp)
  exact ⟨u, hu, hP 0 (by decide), hP 1 (by decide), hP 2 (by decide)⟩

/-- The function `cross` returns the vector of the three signed 2 by 2 determinants. -/
theorem cross_entries [CommRing α] (a b : vector α 3) :
    ∃ n, cross a b = .ok n ∧
      n.entry 0 = a.entry 1 * b.entry 2 - a.entry 2 * b.entry 1 ∧
      n.entry 1 = -(a.entry 0 * b.entry 2 - a.entry 2 * b.entry 0) ∧
      n.entry 2 = a.entry 0 * b.entry 1 - a.entry 1 * b.entry 0 := by
  obtain ⟨ax, ay, az⟩ := vec3_keys a
  obtain ⟨bx, by_, bz⟩ := vec3_keys b
  obtain ⟨mi, hmi, hdi⟩ := det_of_four (a.entry 1) (b.entry 1) (a.entry 2) (b.entry 2)
  obtain ⟨mj, hmj, hdj⟩ := det_of_four (a.entry 0) (b.entry 0) (a.entry 2) (b.entry 2)
  obtain ⟨mk, hmk, hdk⟩ := det_of_four (a.entry 0) (b.entry 0) (a.entry 1) (b.entry 1)
  obtain ⟨n, hn, h0, h1, h2⟩ := vec3_ctor_values_entry
    (a.entry 1 * b.entry 2 - b.entry 1 * a.entry 2)
    (-(a.entry 0 * b.entry 2 - b.entry 0 * a.entry 2))
    (a.entry 0 * b.entry 1 - b.entry 0 * a.entry 1)
  refine ⟨n, ?_, ?_, ?_, ?_⟩
  · unfold cross
    rw [ax, ay, az, bx, by_, bz]
    simp only [bind, Except.bind, hmi, hmj, hmk, hdi, hdj, hdk]
    exact hn
  · rw [h0]; ring
  · rw [h1]; ring
  · rw [h2]; ring

end cross_lemmas

end mv

theorem outcome_bind_ok {β γ : Type} (a : β) (f : β → outcome γ) :
    ((Except.ok a : outcome β) >>= f) = f a := rfl

namespace mv

section move_lemmas

variable {α : Type}

/-- The function `move` returns the matrix with ones on the diagonal, the components of
`radius` in the last column of the first three rows, and zeros elsewhere. -/
theorem move_entries [Zero α] [One α] (radius : vector α 3) :
    ∃ u, move radius = .ok u ∧
      ∀ i j, i < 4 → j < 4 → u.entry i j =
        if j = 3 then (if i < 3 then radius.entry i else 1) else if i = j then 1 else 0 := by
  obtain ⟨rx, ry, rz⟩ := vec3_keys radius
  obtain ⟨u, hu, hP⟩ := matrix_ctor_values_entry (α := α) (r := 4) (c := 4)
    [1, 0, 0, radius.entry 0, 0, 1, 0, radius.entry 1, 0, 0, 1, radius.entry 2, 0, 0, 0, 1]
    (by simp) (by simp)
  refine ⟨u, ?_, ?_⟩
  · unfold move
    rw [rx, outcome_bind_ok, ry, outcome_bind_ok, rz, outcome_bind_ok]
    exact hu
  · intro i j hi hj
    rw [hP i j hi hj]
    interval_cases i <;> interval_cases j <;> simp

end move_lemmas

end mv

section rotations

variable {α : Type} [CommRing α]

theorem rotation_psi_orthogonal (c s : α) (h : c * c + s * s = 1) :
    (!![c, 0, -s; 0, 1, 0; s, 0, c] : Matrix (Fin 3) (Fin 3) α).transpose *
      !![c, 0, -s; 0, 1, 0; s, 0, c] = 1 ∧
    (!![c, 0, -s; 0, 1, 0; s, 0, c] : Matrix (Fin 3) (Fin 3) α).det = 1 := by
  constructor
  · ext i j
    simp only [Matrix.mul_apply, Matrix.transpose_apply, Fin.sum_univ_three]
    fin_cases i <;> fin_cases j <;> simp [Matrix.one_apply, Matrix.vecHead, Matrix.vecTail] <;>
      first | ring1 | linear_combination h
  · rw [Matrix.det_fin_three]
    simp [Matrix.vecHead, Matrix.vecTail]
    linear_combination h

theorem rotation_theta_orthogonal (c s : α) (h : c * c + s * s = 1) :
    (!![c, s, 0; -s, c, 0; 0, 0, 1] : Matrix (Fin 3) (Fin 3) α).transpose *
      !![c, s, 0; -s, c, 0; 0, 0, 1] = 1 ∧
    (!![c, s, 0; -s, c, 0; 0, 0, 1] : Matrix (Fin 3) (Fin 3) α).det = 1 := by
  constructor
  · ext i j
    simp only [Matrix.mul_apply, Matrix.transpose_apply, Fin.sum_univ_three]
    fin_cases i <;> fin_cases j <;> simp [Matrix.one_apply, Matrix.vecHead, Matrix.vecTail] <;>
      first | ring1 | linear_combination h
  · rw [Matrix.det_fin_three]
    simp [Matrix.vecHead, Matrix.vecTail]
    linear_combination h

theorem rotation_gamma_orthogonal (c s : α) (h : c * c + s * s = 1) :
    (!![1, 0, 0; 0, c, s; 0, -s, c] : Matrix (Fin 3) (Fin 3) α).transpose *
      !![1, 0, 0; 0, c, s; 0, -s, c] = 1 ∧
    (!![1, 0, 0; 0, c, s; 0, -s, c] : Matrix (Fin 3) (Fin 3) α).det = 1 := by
  constructor
  · ext i j
    simp only [Matrix.mul_apply, Matrix.transpose_apply, Fin.sum_univ_three]
    fin_cases i <;> fin_cases j <;> simp [Matrix.one_apply, Matrix.vecHead, Matrix.vecTail] <;>
      first | ring1 | linear_combination h
  · rw [Matrix.det_fin_three]
    simp [Matrix.vecHead, Matrix.vecTail]
    linear_combination h

/-- A product of three orthogonal matrices of determinant one, transposed, is
orthogonal of determinant one. -/
theorem rotation_product (G T P : Matrix (Fin 3) (Fin 3) α)
    (hG : G.transpose * G = 1) (hT : T.transpose * T = 1) (hP : P.transpose * P = 1)
    (dG : G.det = 1) (dT : T.det = 1) (dP : P.det = 1) :
    (G * T * P).transpose * (G * T * P).transpose.transpose = 1 ∧
      (G * T * P).transpose.det = 1 := by
  constructor
  · rw [Matrix.transpose_transpose, Matrix.transpose_mul, Matrix.transpose_mul]
    calc P.transpose * (T.transpose * G.transpose) * (G * T * P)
        = P.transpose * (T.transpose * (G.transpose * G) * T) * P := by
          simp only [Matrix.mul_assoc]
      _ = 1 := by rw [hG, Matrix.mul_one, hT, Matrix.mul_one, hP]
  · rw [Matrix.det_transpose, Matrix.det_mul, Matrix.det_mul, dG, dT, dP]
    simp

end rotations

namespace mv

section rotate_lemmas

variable {α : Type}

theorem mat3_ctor_values_to_Matrix [Zero α] (a b c d e f g h i : α) :
    ∃ u : matrix α 3 3, matrix.ctor_values [a, b, c, d, e, f, g, h, i] = .ok u ∧
      u.to_Matrix = !![a, b, c; d, e, f; g, h, i] := by
  obtain ⟨u, hu, hP⟩ := matrix_ctor_values_entry (α := α) (r := 3) (c := 3)
    [a, b, c, d, e, f, g, h, i] (by simp) (by simp)
  refine ⟨u, hu, ?_⟩
  funext x y
  show u.entry x.val y.val = _
  rw [hP _ _ x.isLt y.isLt]
  fin_cases x <;> fin_cases y <;> rfl

/-- The function `rotate_euler` returns the transpose of `gamma * theta * psi`. -/
theorem rotate_euler_to_Matrix [CommRing α] (cos sin : α → α) (angles : vector α 3) :
    ∃ u, rotate_euler cos sin angles = .ok u ∧
      u.to_Matrix =
        ((!![1, 0, 0;
             0, cos (angles.entry 2), sin (angles.entry 2);
             0, -sin (angles.entry 2), cos (angles.entry 2)] : Matrix (Fin 3) (Fin 3) α) *
          !![cos (angles.entry 1), sin (angles.entry 1), 0;
             -sin (angles.entry 1), cos (angles.entry 1), 0;
             0, 0, 1] *
          !![cos (angles.entry 0), 0, -sin (angles.entry 0);
             0, 1, 0;
             sin (angles.entry 0), 0, cos (angles.entry 0)]).transpose := by
  obtain ⟨ax, ay, az⟩ := vec3_keys angles
  obtain ⟨psi, hpsi, epsi⟩ := mat3_ctor_values_to_Matrix
    (cos (angles.entry 0)) 0 (-sin (angles.entry 0)) 0 1 0
    (sin (angles.entry 0)) 0 (cos (angles.entry 0))
  obtain ⟨theta, htheta, etheta⟩ := mat3_ctor_values_to_Matrix
    (cos (angles.entry 1)) (sin (angles.entry 1)) 0
    (-sin (angles.entry 1)) (cos (angles.entry 1)) 0 0 0 1
  obtain ⟨gamma, hgamma, egamma⟩ := mat3_ctor_values_to_Matrix
    1 0 0 0 (cos (angles.entry 2)) (sin (angles.entry 2))
    0 (-sin (angles.entry 2)) (cos (angles.entry 2))
  obtain ⟨gt, hgt, egt⟩ := mul_to_Matrix gamma theta
  obtain ⟨res, hres, eres⟩ := mul_to_Matrix gt psi
  obtain ⟨u, hu, eu⟩ := transpose_to_Matrix res
  refine ⟨u, ?_, ?_⟩
  · unfold rotate_euler
    rw [ax, outcome_bind_ok, ay, outcome_bind_ok, az, outcome_bind_ok, hpsi, outcome_bind_ok,
      htheta, outcome_bind_ok, hgamma, outcome_bind_ok, hgt, outcome_bind_ok, hres,
      outcome_bind_ok]
    exact hu
  · rw [eu, eres, egt, egamma, etheta, epsi]

end rotate_lemmas

variable {α : Type}

/-- C13: for every triple of real Euler angles, `rotate_euler` returns a matrix `R`, the
transpose of `gamma * theta * psi`; `R * transpose(R)` returns the identity, which is
the default-constructed matrix, and `det(R)` is 1. -/
theorem rotate_euler_is_proper_rotation (angles : vector ℝ 3) :
    ∃ R Rt Q : matrix ℝ 3 3, rotate_euler Real.cos Real.sin angles = .ok R ∧
      transpose R = .ok Rt ∧ mul R Rt = .ok Q ∧
      Q.to_Matrix = 1 ∧ matrix.ctor = .ok Q ∧ det 3 3 R = .ok 1 := by
  obtain ⟨R, hR, eR⟩ := rotate_euler_to_Matrix Real.cos Real.sin angles
  obtain ⟨Rt, hRt, eRt⟩ := transpose_to_Matrix R
  obtain ⟨Q, hQ, eQ⟩ := mul_to_Matrix R Rt
  obtain ⟨I, hI, eI⟩ := matrix_ctor_to_Matrix (α := ℝ) 3
  have hcs : ∀ x : ℝ, Real.cos x * Real.cos x + Real.sin x * Real.sin x = 1 := by
    intro x
    have := Real.cos_sq_add_sin_sq x
    nlinarith [this]
  obtain ⟨oP, dP⟩ := rotation_psi_orthogonal _ _ (hcs (angles.entry 0))
  obtain ⟨oT, dT⟩ := rotation_theta_orthogonal _ _ (hcs (angles.entry 1))
  obtain ⟨oG, dG⟩ := rotation_gamma_orthogonal _ _ (hcs (angles.entry 2))
  obtain ⟨hrot, hdet⟩ := rotation_product _ _ _ oG oT oP dG dT dP
  have hQ1 : Q.to_Matrix = 1 := by rw [eQ, eRt, eR]; exact hrot
  have hQI : I = Q := to_Matrix_injective (eI.trans hQ1.symm)
  refine ⟨R, Rt, Q, hR, hRt, hQ, hQ1, hQI ▸ hI, ?_⟩
  rw [det_eq_Matrix_det 2 R, eR, hdet]

/-- C11: for all 3-vectors `a` and `b`, `cross(a, b)` returns the vector
`(a_y b_z - a_z b_y, -(a_x b_z - a_z b_x), a_x b_y - a_y b_x)`, where the keys `x`, `y`,
`z` read the elements 0, 1, 2. -/
theorem cross_is_right_handed_product [CommRing α] (a b : vector α 3) :
    (a.key "x" = .ok (a.entry 0) ∧ a.key "y" = .ok (a.entry 1) ∧ a.key "z" = .ok (a.entry 2)) ∧
    (b.key "x" = .ok (b.entry 0) ∧ b.key "y" = .ok (b.entry 1) ∧ b.key "z" = .ok (b.entry 2)) ∧
    cross a b = .ok ⟨![a.entry 1 * b.entry 2 - a.entry 2 * b.entry 1,
      -(a.entry 0 * b.entry 2 - a.entry 2 * b.entry 0),
      a.entry 0 * b.entry 1 - a.entry 1 * b.entry 0]⟩ := by
  refine ⟨vec3_keys a, vec3_keys b, ?_⟩
  obtain ⟨n, hn, h0, h1, h2⟩ := cross_entries a b
  rw [hn]
  congr 1
  apply vector_ext_entry
  intro i hi
  interval_cases i
  · rw [h0]; rfl
  · rw [h1]; rfl
  · rw [h2]; rfl

/-- C12, the code at every input: `cross(a, b)` returns, and `dot` of it with `a` or
with `b` reads the accumulator `result`, which was declared without an initialiser, so
neither call returns `0`. -/
theorem dot_of_cross_reads_indeterminate [CommRing α] (a b : vector α 3) :
    ∃ n, cross a b = .ok n ∧ dot n a = .error .indeterminate_value ∧
      dot n b = .error .indeterminate_value := by
  obtain ⟨n, hn, -⟩ := cross_entries a b
  exact ⟨n, hn, dot_reads_indeterminate n a, dot_reads_indeterminate n b⟩

/-- C14, the code at every input: `change` calls `tranpose`, a name declared nowhere, so
no instantiation of it returns a matrix. -/
theorem change_is_ill_formed [Semiring α] (n : Nat) (M basis : matrix α n n) :
    change M basis = .error (.ill_formed "tranpose was not declared in this scope") := rfl

/-- C15: for all 3-vectors `r` and `v`, `move(r)`, `high(v, 1)`, `v + r` and
`high(v + r, 1)` return, and `move(r) * high(v, 1)` is `high(v + r, 1)`: the first three
components are those of `v + r` and the last is 1. -/
theorem move_translates_homogeneous_point [CommRing α] (r v : vector α 3) :
    ∃ (T : matrix α 4 4) (hv : vector α 4) (s : vector α 3) (hs : vector α 4),
      move r = .ok T ∧ high v 1 = .ok hv ∧ add v r = .ok s ∧ high s 1 = .ok hs ∧
      mul_vec T hv = .ok hs ∧
      (∀ k, k < 3 → hs.entry k = v.entry k + r.entry k) ∧ hs.entry 3 = 1 := by
  obtain ⟨T, hT, eT⟩ := move_entries r
  obtain ⟨hv, hhv, ehv⟩ := high_entry v (1 : α)
  obtain ⟨s, hs, es⟩ := add_entry v r
  obtain ⟨w, hw, ew⟩ := high_entry s (1 : α)
  obtain ⟨u, hu, eu⟩ := mul_vec_entry (Nat.le_refl 4) T hv
  have hw3 : ∀ k, k < 3 → w.entry k = v.entry k + r.entry k := by
    intro k hk
    rw [ew k (by omega), if_pos hk, es k hk]
  have hw4 : w.entry 3 = 1 := by rw [ew 3 (by decide), if_neg (by decide)]
  have huw : u = w := by
    apply vector_ext_entry
    intro k hk
    rw [eu k hk, if_pos hk]
    simp only [Finset.sum_range_succ, Finset.sum_range_zero, zero_add]
    rw [eT k 0 hk (by decide), eT k 1 hk (by decide), eT k 2 hk (by decide),
      eT k 3 hk (by decide), ehv 0 (by decide), ehv 1 (by decide), ehv 2 (by decide),
      ehv 3 (by decide)]
    interval_cases k
    · rw [hw3 0 (by decide)]; simp
    · rw [hw3 1 (by decide)]; simp
    · rw [hw3 2 (by decide)]; simp
    · rw [hw4]; simp
  exact ⟨T, hv, s, w, hT, hhv, hs, hw, huw ▸ hu, hw3, hw4⟩

/-- C16, counterexample: on a 3 by 3 matrix the key `xw`, which names row 0 and column 3,
a pair outside the matrix, reads the element `M[1][0]`. -/
theorem key_xw_reads_another_element :
    ("xw", 0, 3) ∈ matrix.axis_keys ∧
    (⟨![10, 11, 12, 13, 14, 15, 16, 17, 18]⟩ : matrix ℤ 3 3).key "xw" = .ok 13 ∧
    (⟨![10, 11, 12, 13, 14, 15, 16, 17, 18]⟩ : matrix ℤ 3 3).get_at 1 0 = .ok 13 :=
  ⟨by simp [matrix.axis_keys], by rfl, by rfl⟩

/-- C16, amended: for every matrix and every one of the sixteen keys, naming the pair
(row, column), access by the key addresses the same storage position as `M[row][column]`,
namely `row * _column + column`, for reading and for writing. When the pair lies inside
the matrix that is the stored element of that row and column; a pair outside the matrix
is not rejected, and the access is out of range when the position is past the storage. -/
theorem key_access_is_positional_access [Zero α] {r c : Nat} (m : matrix α r c)
    (p : String × Nat × Nat) (hp : p ∈ matrix.axis_keys) :
    m._hash p.1 = p.2.1 * c + p.2.2 ∧
    m.key p.1 = m.get_at p.2.1 p.2.2 ∧
    (∀ x, m.set_key p.1 x = m.set_at p.2.1 p.2.2 x) ∧
    (p.2.1 < r → p.2.2 < c → m.key p.1 = .ok (m.entry p.2.1 p.2.2)) ∧
    (r * c ≤ p.2.1 * c + p.2.2 → m.key p.1 = .error .out_of_range) := by
  have h := matrix_hash_axis m p hp
  refine ⟨h, ?_, ?_, ?_, ?_⟩
  · simp only [matrix.key, matrix.get_at, h]
  · intro x; simp only [matrix.set_key, matrix.set_at, h]
  · intro hr hc
    rw [← matrix_get_at_entry m hr hc]
    simp only [matrix.key, matrix.get_at, h]
  · intro hge
    simp only [matrix.key, h, matrix.get, dif_neg (Nat.not_lt.2 hge)]

/-- Witness for C16 as amended: the key `yz` on a 3 by 3 integer matrix. -/
theorem key_access_is_positional_access_witness :
    ("yz", 1, 2) ∈ matrix.axis_keys ∧
    (⟨![10, 11, 12, 13, 14, 15, 16, 17, 18]⟩ : matrix ℤ 3 3).key "yz" =
      (⟨![10, 11, 12, 13, 14, 15, 16, 17, 18]⟩ : matrix ℤ 3 3).get_at 1 2 :=
  ⟨by simp [matrix.axis_keys],
    (key_access_is_positional_access (⟨![10, 11, 12, 13, 14, 15, 16, 17, 18]⟩ : matrix ℤ 3 3)
      ("yz", 1, 2) (by simp [matrix.axis_keys])).2.1⟩

/-- C17, counterexample: on the vector `(1, 2, 3)` the key `q` resolves to index 3, the
size of the storage, and the access addresses that position, one past the last element;
what comes back is the out-of-range fault, not a reported invalid-key error. -/
theorem key_q_addresses_past_the_end :
    (⟨![1, 2, 3]⟩ : vector ℤ 3)._hash "q" = 3 ∧
    (⟨![1, 2, 3]⟩ : vector ℤ 3).key "q" = (⟨![1, 2, 3]⟩ : vector ℤ 3).get 3 ∧
    (⟨![1, 2, 3]⟩ : vector ℤ 3).key "q" = .error .out_of_range :=
  ⟨by rfl, by rfl, by rfl⟩

/-- C17, amended: no invalid-key error exists. For every vector and every matrix, a key
that is not one of the recognized names resolves to `_data.size()`, and both the read
and the write through it address that position, one past the last element of the
storage, which is an out-of-range access. -/
theorem unrecognized_key_addresses_end_of_storage :
    (∀ (d : Nat) (v : vector α d) (key : String),
      (∀ p ∈ vector.axis_names, p.1 ≠ key) →
        v._hash key = d ∧ v.key key = v.get d ∧ v.key key = .error .out_of_range ∧
        ∀ x, v.set_key key x = .error .out_of_range) ∧
    (∀ (r c : Nat) (m : matrix α r c) (key : String),
      (∀ p ∈ matrix.axis_keys, p.1 ≠ key) →
        m._hash key = r * c ∧ m.key key = m.get (r * c) ∧
        m.key key = .error .out_of_range ∧
        ∀ x, m.set_key key x = .error .out_of_range) := by
  constructor
  · intro d v key hkey
    have h := vector_hash_unknown v key hkey
    refine ⟨h, ?_, ?_, ?_⟩
    · simp only [vector.key, h]
    · simp only [vector.key, h, vector.get, dif_neg (Nat.lt_irrefl d)]
    · intro x; simp only [vector.set_key, h, vector.set, dif_neg (Nat.lt_irrefl d)]
  · intro r c m key hkey
    have h := matrix_hash_unknown m key hkey
    refine ⟨h, ?_, ?_, ?_⟩
    · simp only [matrix.key, h]
    · simp only [matrix.key, h, matrix.get, dif_neg (Nat.lt_irrefl _)]
    · intro x; simp only [matrix.set_key, h, matrix.set, dif_neg (Nat.lt_irrefl _)]

/-- C18: for every vector and every axis name whose index `i` is below the dimension,
access by the name and access by `i` read the same stored element, and a write through
the name is the write at `i`: it returns, sets element `i` and leaves every other element
as it was. -/
theorem axis_name_access_is_index_access [Zero α] {d : Nat} (v : vector α d)
    (p : String × Nat) (hp : p ∈ vector.axis_names) (hd : p.2 < d) :
    v.key p.1 = v.get p.2 ∧ v.key p.1 = .ok (v.entry p.2) ∧
    ∀ x, v.set_key p.1 x = v.set p.2 x ∧
      ∃ u, v.set_key p.1 x = .ok u ∧ u.entry p.2 = x ∧
        ∀ k, k < d → k ≠ p.2 → u.entry k = v.entry k := by
  have h := vector_hash_axis v p hp
  refine ⟨?_, ?_, ?_⟩
  · simp only [vector.key, h]
  · rw [← vector_get_entry v hd]
    simp only [vector.key, h]
  · intro x
    have hset : v.set_key p.1 x = v.set p.2 x := by simp only [vector.set_key, h]
    obtain ⟨u, hu, hu'⟩ := vector_set_entry v hd x
    refine ⟨hset, u, hset.trans hu, ?_, ?_⟩
    · rw [hu' p.2 hd, if_pos rfl]
    · intro k hk hne
      rw [hu' k hk, if_neg hne]

/-- Witness for C18: the name `y` on the integer vector `(10, 20, 30)`. -/
theorem axis_name_access_is_index_access_witness :
    (⟨![10, 20, 30]⟩ : vector ℤ 3).key "y" = (⟨![10, 20, 30]⟩ : vector ℤ 3).get 1 :=
  (axis_name_access_is_index_access (⟨![10, 20, 30]⟩ : vector ℤ 3) ("y", 1)
    (by simp [vector.axis_names]) (by decide)).1

/-- C19, counterexample: the list `1, 2`, of two elements, constructs a vector of
dimension 3, the vector `(1, 2, 0)`. -/
theorem short_list_constructs_a_vector :
    ∃ u : vector ℤ 3, vector.ctor_values [1, 2] = .ok u ∧
      u.entry 0 = 1 ∧ u.entry 1 = 2 ∧ u.entry 2 = 0 := by
  obtain ⟨u, hu, hP⟩ := vector_ctor_values_entry (α := ℤ) (d := 3) [1, 2] (by simp) (by simp)
  exact ⟨u, hu, hP 0 (by decide), hP 1 (by decide), hP 2 (by decide)⟩

/-- C19, amended: the variadic constructor of a vector of dimension `N` (of an `R` by
`C` matrix) accepts a list of at most `N` (at most `R * C`) elements: the elements are
stored in order and the elements the list does not reach stay 0. A longer list is
rejected by the `static_assert` with the message `list overflow`. -/
theorem list_construction_checks_overflow_only [Zero α] (l : List α) (hne : l ≠ []) :
    (∀ d : Nat, 0 < d →
      (l.length ≤ d → ∃ u : vector α d, vector.ctor_values l = .ok u ∧
        ∀ i, i < d → u.entry i = l.getD i 0) ∧
      (d < l.length →
        (vector.ctor_values l : outcome (vector α d)) =
          .error (.ill_formed "list overflow"))) ∧
    (∀ r c : Nat, 0 < r * c →
      (l.length ≤ r * c → ∃ u : matrix α r c, matrix.ctor_values l = .ok u ∧
        ∀ i j, i < r → j < c → u.entry i j = l.getD (i * c + j) 0) ∧
      (r * c < l.length →
        (matrix.ctor_values l : outcome (matrix α r c)) =
          .error (.ill_formed "list overflow"))) := by
  obtain ⟨hv, hm⟩ := ctor_values_overflow l
  exact ⟨fun d hd => ⟨fun hlen => vector_ctor_values_entry l hne hlen, hv d hd⟩,
    fun r c hrc => ⟨fun hlen => matrix_ctor_values_entry l hne hlen, hm r c hrc⟩⟩

/-- Witness for C19 as amended: the integer list `1, 2, 3`. -/
theorem list_construction_checks_overflow_only_witness :
    ((3 : Nat) ≤ 3 → ∃ u : vector ℤ 3, vector.ctor_values [1, 2, 3] = .ok u ∧
        ∀ i, i < 3 → u.entry i = [(1 : ℤ), 2, 3].getD i 0) ∧
    ((2 : Nat) < 3 →
      (vector.ctor_values [(1 : ℤ), 2, 3] : outcome (vector ℤ 2)) =
        .error (.ill_formed "list overflow")) :=
  ⟨((list_construction_checks_overflow_only [(1 : ℤ), 2, 3] (by simp)).1 3 (by decide)).1,
    ((list_construction_checks_overflow_only [(1 : ℤ), 2, 3] (by simp)).1 2 (by decide)).2⟩

/-- C20: the default constructor of an `R` by `C` matrix returns; when `R = C` the
matrix has 1 on the diagonal and 0 elsewhere, the identity, and when `R ≠ C` every
element is 0. -/
theorem default_construction_identity_or_zero [Zero α] [One α] :
    (∀ r c : Nat, ∃ u : matrix α r c, matrix.ctor = .ok u ∧
      ∀ i j, i < r → j < c → u.entry i j = if r = c ∧ i = j then 1 else 0) ∧
    (∀ n : Nat, ∃ u : matrix α n n, matrix.ctor = .ok u ∧ u.to_Matrix = 1) ∧
    (∀ r c : Nat, r ≠ c → ∃ u : matrix α r c, matrix.ctor = .ok u ∧
      (∀ idx, u._data idx = 0) ∧ u.to_Matrix = 0) := by
  refine ⟨fun r c => matrix_ctor_entry, fun n => matrix_ctor_to_Matrix n, ?_⟩
  intro r c h
  refine ⟨matrix.zeroed, ?_, fun _ => rfl, ?_⟩
  · unfold matrix.ctor
    rw [if_neg h]
  · funext i j
    exact matrix_zeroed_entry _ _

end mv

/-! ## Lengths, faults of loops, and the switch of the random factories -/

section loop_faults

variable {σ : Type}

/-- A loop whose iterations below `k` all return and whose iteration `k` always ends in
the fault `e` ends in that fault, when `k` is below the bound. -/
theorem for_range_fault (n k : Nat) (hk : k < n) (body : Nat → σ → outcome σ) (e : fault)
    (hok : ∀ i, i < k → ∀ s, ∃ t, body i s = .ok t)
    (hfault : ∀ s, body k s = .error e) (s : σ) :
    for_range n body s = .error e := by
  have hpre : ∀ m, m ≤ k → ∃ t, for_range m body s = .ok t := by
    intro m
    induction m with
    | zero => intro _; exact ⟨s, rfl⟩
    | succ m ih =>
      intro hm
      obtain ⟨t, ht⟩ := ih (Nat.le_of_succ_le hm)
      obtain ⟨u, hu⟩ := hok m hm t
      exact ⟨u, by rw [for_range_succ, ht]; exact hu⟩
  induction n with
  | zero => exact absurd hk (Nat.not_lt_zero _)
  | succ n ih =>
    rw [for_range_succ]
    by_cases h : k = n
    · subst h
      obtain ⟨t, ht⟩ := hpre k (Nat.le_refl k)
      rw [ht]
      exact hfault t
    · rw [ih (by omega)]
      rfl

end loop_faults

namespace mv

section length_lemmas

variable {α : Type}

/-- The function `length` returns the root of the sum of the squared elements. -/
theorem length_eq [Semiring α] (sqrt : α → α) {d : Nat} (v : vector α d) :
    length sqrt v = .ok (sqrt (∑ i in Finset.range d, v.entry i * v.entry i)) := by
  obtain ⟨u, hu, hP⟩ := for_range_invariant
    (fun n (result : α) => result = ∑ i in Finset.range n, v.entry i * v.entry i)
    d (fun i (result : α) => do
      let x ← v.get i
      pure (result + x * x)) 0
    (by simp)
    (by
      intro i hi t ht
      refine ⟨t + v.entry i * v.entry i, ?_, ?_⟩
      · show (v.get i >>= fun x => pure (t + x * x)) = _
        rw [vector_get_entry v hi]
        rfl
      · show t + v.entry i * v.entry i = ∑ j in Finset.range (i + 1), v.entry j * v.entry j
        rw [Finset.sum_range_succ, ht])
  unfold length
  rw [hu, outcome_bind_ok, hP]
  rfl

/-- The function `normalize` returns, each element divided by the length, whatever the
length is. -/
theorem normalize_entry [Semiring α] (sqrt : α → α) (div : α → α → α) {d : Nat}
    (v : vector α d) :
    ∃ u, normalize sqrt div v = .ok u ∧
      ∀ k, k < d → u.entry k =
        div (v.entry k) (sqrt (∑ i in Finset.range d, v.entry i * v.entry i)) := by
  obtain ⟨u, hu, hP⟩ := vector_fill_loop d (Nat.le_refl d)
    (fun i => div (v.entry i) (sqrt (∑ i in Finset.range d, v.entry i * v.entry i)))
    (fun i (result : vector α d) => do
      let x ← v.get i
      result.set i (div x (sqrt (∑ i in Finset.range d, v.entry i * v.entry i))))
    (by
      intro i hi t
      show (v.get i >>= fun x => t.set i (div x _)) = _
      rw [vector_get_entry v hi]
      rfl) vector.ctor
  refine ⟨u, ?_, fun k hk => by rw [hP k hk, if_pos hk]⟩
  unfold normalize
  rw [length_eq, outcome_bind_ok]
  exact hu

/-- For a matrix with more rows than columns, and at least one column, the
matrix-vector product addresses `result[_column]`, past the end of `result`. -/
theorem mul_vec_out_of_range [Semiring α] {r c : Nat} (hc : 0 < c) (hrc : c < r)
    (A : matrix α r c) (v : vector α c) : mul_vec A v = .error .out_of_range := by
  unfold mul_vec
  rw [vector_ctor_value_zero, outcome_bind_ok]
  refine for_range_fault c 0 hc _ _ (fun i hi => absurd hi (Nat.not_lt_zero _)) ?_ _
  intro s
  refine for_range_fault r c hrc _ _ ?_ ?_ s
  · intro i hi t
    obtain ⟨u, hu, -⟩ := vector_set_entry t hi (t.entry i + v.entry 0 * A.entry i 0)
    refine ⟨u, ?_⟩
    show (t.get i >>= fun r => v.get 0 >>= fun x => A.get_at i 0 >>= fun a =>
      t.set i (r + x * a)) = _
    rw [vector_get_entry t hi, outcome_bind_ok, vector_get_entry v hc, outcome_bind_ok,
      matrix_get_at_entry A (Nat.lt_trans hi hrc) hc, outcome_bind_ok]
    exact hu
  · intro t
    show (t.get c >>= fun r => v.get 0 >>= fun x => A.get_at c 0 >>= fun a =>
      t.set c (r + x * a)) = _
    simp [vector.get, bind, Except.bind]

end length_lemmas

end mv

namespace mv

section unit_lemmas

/-- Over the reals, the squares of the elements of a vector with a nonzero element sum
to a positive number. -/
theorem sum_of_squares_pos {d : Nat} (v : vector ℝ d) (h : ∃ i, v._data i ≠ 0) :
    0 < ∑ i in Finset.range d, v.entry i * v.entry i := by
  obtain ⟨i, hi⟩ := h
  have hmem : i.val ∈ Finset.range d := Finset.mem_range.mpr i.isLt
  have hnn : ∀ k ∈ Finset.range d, 0 ≤ v.entry k * v.entry k :=
    fun k _ => mul_self_nonneg _
  have hle := Finset.single_le_sum hnn hmem
  have hpos : 0 < v.entry i.val * v.entry i.val := by
    rw [vector_entry_eq v i.isLt]
    exact mul_self_pos.mpr hi
  exact lt_of_lt_of_le hpos hle

end unit_lemmas

variable {α : Type}

/-- C21: for every value `c`, the single-value constructor of an `R` by `C` matrix
returns; when `R = C` the matrix has `c` on every diagonal element and 0 elsewhere, and
when `R ≠ C` every element is `c`. -/
theorem single_value_construction_broadcasts [Zero α] (value : α) :
    (∀ n : Nat, ∃ u : matrix α n n, matrix.ctor_value value = .ok u ∧
      (∀ i j, i < n → j < n → u.entry i j = if i = j then value else 0) ∧
      u.to_Matrix = Matrix.diagonal (fun _ => value)) ∧
    (∀ r c : Nat, r ≠ c → ∃ u : matrix α r c, matrix.ctor_value value = .ok u ∧
      (∀ i j, i < r → j < c → u.entry i j = value) ∧
      ∀ idx, u._data idx = value) := by
  constructor
  · intro n
    obtain ⟨u, hu, hP⟩ := matrix_ctor_value_entry (r := n) (c := n) value
    have hent : ∀ i j, i < n → j < n → u.entry i j = if i = j then value else 0 := by
      intro i j hi hj
      rw [hP i j hi hj, if_pos rfl]
    refine ⟨u, hu, hent, ?_⟩
    funext i j
    show u.entry i.val j.val = _
    rw [hent i.val j.val i.isLt j.isLt, Matrix.diagonal_apply]
    by_cases h : i = j
    · rw [if_pos h, if_pos (congrArg Fin.val h)]
    · rw [if_neg h, if_neg (fun e => h (Fin.ext e))]
  · intro r c h
    obtain ⟨u, hu, hP⟩ := matrix_ctor_value_entry (r := r) (c := c) value
    have hent : ∀ i j, i < r → j < c → u.entry i j = value := by
      intro i j hi hj
      rw [hP i j hi hj, if_neg h]
    refine ⟨u, hu, hent, ?_⟩
    intro idx
    have hc : 0 < c := by
      rcases Nat.eq_zero_or_pos c with h0 | h0
      · have := idx.isLt; simp [h0] at this
      · exact h0
    have hi : idx.val / c < r := by
      rw [Nat.div_lt_iff_lt_mul hc]
      exact idx.isLt
    have hj : idx.val % c < c := Nat.mod_lt _ hc
    have := hent _ _ hi hj
    rw [matrix_entry_eq u hi hj] at this
    rw [← this]
    congr 1
    exact Fin.ext (Nat.div_add_mod' idx.val c).symm

/-- C22, counterexample: on the vector `(0, 0, 0)`, of length 0, `normalize` reports no
error; whatever the division returns for `0 / 0`, it returns the vector of the three
quotients. -/
theorem normalize_of_zero_vector_returns :
    length Real.sqrt (⟨![0, 0, 0]⟩ : vector ℝ 3) = .ok 0 ∧
    ∀ div : ℝ → ℝ → ℝ,
      normalize Real.sqrt div (⟨![0, 0, 0]⟩ : vector ℝ 3) = .ok ⟨fun _ => div 0 0⟩ := by
  have hS : ∑ i in Finset.range 3,
      (⟨![0, 0, 0]⟩ : vector ℝ 3).entry i * (⟨![0, 0, 0]⟩ : vector ℝ 3).entry i = 0 := by
    simp [Finset.sum_range_succ, vector.entry]
  constructor
  · rw [length_eq, hS, Real.sqrt_zero]
  · intro div
    obtain ⟨u, hu, hP⟩ := normalize_entry Real.sqrt div (⟨![0, 0, 0]⟩ : vector ℝ 3)
    rw [hu]
    congr 1
    apply vector_ext_entry
    intro i hi
    rw [hP i hi, hS, Real.sqrt_zero]
    interval_cases i <;> simp [vector.entry]

/-- C22, amended: `normalize` reports no error on a vector whose elements are all 0.
The length is `sqrt 0`, which is 0, and the vector returned holds in every element the
quotient of 0 by that length, whatever the division returns for it. -/
theorem normalize_divides_by_zero_length [Semiring α] (sqrt : α → α) (div : α → α → α)
    (hsqrt : sqrt 0 = 0) (d : Nat) :
    length sqrt (⟨fun _ => 0⟩ : vector α d) = .ok 0 ∧
    normalize sqrt div (⟨fun _ => 0⟩ : vector α d) = .ok ⟨fun _ => div 0 0⟩ := by
  have hz : ∀ i, (⟨fun _ => 0⟩ : vector α d).entry i = 0 := by
    intro i
    simp [vector.entry]
  have hS : ∑ i in Finset.range d,
      (⟨fun _ => 0⟩ : vector α d).entry i * (⟨fun _ => 0⟩ : vector α d).entry i = 0 := by
    apply Finset.sum_eq_zero
    intro i _
    rw [hz, mul_zero]
  constructor
  · rw [length_eq, hS, hsqrt]
  · obtain ⟨u, hu, hP⟩ := normalize_entry sqrt div (⟨fun _ => 0⟩ : vector α d)
    rw [hu]
    congr 1
    apply vector_ext_entry
    intro i hi
    rw [hP i hi, hS, hsqrt, hz, vector_entry_eq _ hi]

/-- Witness for C22 as amended: the reals with `Real.sqrt`, in dimension 3. -/
theorem normalize_divides_by_zero_length_witness :
    Real.sqrt 0 = 0 ∧
    length Real.sqrt (⟨fun _ => 0⟩ : vector ℝ 3) = .ok 0 ∧
    normalize Real.sqrt (fun x y => x / y) (⟨fun _ => 0⟩ : vector ℝ 3) =
      .ok ⟨fun _ => (0 : ℝ) / 0⟩ :=
  ⟨Real.sqrt_zero,
    normalize_divides_by_zero_length Real.sqrt (fun x y => x / y) Real.sqrt_zero 3⟩

/-- C24, the code at every input: `dot` reads its accumulator `result`, declared without
an initialiser, so it does not return the sum of the products; for `a = (1, 2, 3)` and
`b = (4, 5, 6)` it does not return 32. -/
theorem dot_accumulator_has_no_initial_value :
    (∀ (β : Type) [Semiring β] (d : Nat) (a b : vector β d),
      dot a b = .error .indeterminate_value ∧
      dot a b ≠ .ok (∑ i in Finset.range d, a.entry i * b.entry i)) ∧
    dot (⟨![1, 2, 3]⟩ : vector ℤ 3) ⟨![4, 5, 6]⟩ ≠ .ok 32 := by
  refine ⟨fun β _ d a b => ⟨dot_reads_indeterminate a b, ?_⟩, ?_⟩
  · rw [dot_reads_indeterminate a b]
    intro h
    cases h
  · rw [dot_reads_indeterminate]
    intro h
    cases h

/-- C25, the code on a matrix with more rows than columns: the product of the 2 by 1
matrix of rows `(1)`, `(2)` with the vector `(1)` writes `result[1]` in a `result` of
one element, and so does the product of every `R` by `C` matrix with `0 < C < R`. When
`R ≤ C` the product returns the sums the claim states, in a vector of `C` elements. -/
theorem product_of_tall_matrix_writes_out_of_range :
    mul_vec (⟨![1, 2]⟩ : matrix ℤ 2 1) (⟨![1]⟩ : vector ℤ 1) = .error .out_of_range ∧
    (∀ (β : Type) [Semiring β] (r c : Nat), 0 < c → c < r →
      ∀ (A : matrix β r c) (v : vector β c), mul_vec A v = .error .out_of_range) ∧
    (∀ (β : Type) [Semiring β] (r c : Nat), r ≤ c →
      ∀ (A : matrix β r c) (v : vector β c), ∃ u, mul_vec A v = .ok u ∧
        ∀ i, i < r → u.entry i = ∑ j in Finset.range c, v.entry j * A.entry i j) := by
  refine ⟨mul_vec_out_of_range (by decide) (by decide) _ _,
    fun β _ r c hc hrc A v => mul_vec_out_of_range hc hrc A v, ?_⟩
  intro β _ r c hrc A v
  obtain ⟨u, hu, hP⟩ := mul_vec_entry hrc A v
  refine ⟨u, hu, fun i hi => ?_⟩
  rw [hP i (Nat.lt_of_lt_of_le hi hrc), if_pos hi]

/-- C26: over the reals, for every vector `v` with a nonzero element, `length(v)` and
`normalize(v)` return, `length(normalize(v))` returns 1, and every element of
`normalize(v)` times `length(v)` is the element of `v` of that index. -/
theorem normalize_is_unit_and_parallel {d : Nat} (v : vector ℝ d)
    (h : ∃ i, v._data i ≠ 0) :
    ∃ n len, length Real.sqrt v = .ok len ∧
      normalize Real.sqrt (fun x y => x / y) v = .ok n ∧
      length Real.sqrt n = .ok 1 ∧
      ∀ i, n._data i * len = v._data i := by
  have hS := sum_of_squares_pos v h
  have hL : 0 < Real.sqrt (∑ i in Finset.range d, v.entry i * v.entry i) :=
    Real.sqrt_pos.mpr hS
  obtain ⟨n, hn, hP⟩ := normalize_entry Real.sqrt (fun x y => x / y) v
  refine ⟨n, _, length_eq Real.sqrt v, hn, ?_, ?_⟩
  · rw [length_eq]
    have hsum : ∑ i in Finset.range d, n.entry i * n.entry i = 1 := by
      have hterm : ∀ i ∈ Finset.range d, n.entry i * n.entry i =
          (v.entry i * v.entry i) / (∑ i in Finset.range d, v.entry i * v.entry i) := by
        intro i hi
        rw [hP i (Finset.mem_range.mp hi)]
        show v.entry i / _ * (v.entry i / _) = _
        rw [div_mul_div_comm, Real.mul_self_sqrt (le_of_lt hS)]
      rw [Finset.sum_congr rfl hterm, ← Finset.sum_div, div_self (ne_of_gt hS)]
    rw [hsum, Real.sqrt_one]
  · intro i
    have := hP i.val i.isLt
    rw [vector_entry_eq n i.isLt, vector_entry_eq v i.isLt] at this
    rw [this]
    exact div_mul_cancel₀ _ (ne_of_gt hL)

/-- Witness for C26: the vector `(3, 4)`, whose first element is not 0. -/
theorem normalize_is_unit_and_parallel_witness :
    (∃ i, (⟨![3, 4]⟩ : vector ℝ 2)._data i ≠ 0) ∧
    ∃ n len, length Real.sqrt (⟨![3, 4]⟩ : vector ℝ 2) = .ok len ∧
      normalize Real.sqrt (fun x y => x / y) (⟨![3, 4]⟩ : vector ℝ 2) = .ok n ∧
      length Real.sqrt n = .ok 1 ∧
      ∀ i, n._data i * len = (⟨![3, 4]⟩ : vector ℝ 2)._data i :=
  ⟨⟨0, by simp⟩, normalize_is_unit_and_parallel _ ⟨0, by simp⟩⟩

end mv

namespace curves

namespace curve_builder

variable {α : Type}

/-- C23: whatever `std::rand()` returns, the variant index `rand % 3` is 0, 1 or 2, the
value of `CIRCLE`, `ELLIPSE` or `HELIX`, and both random factories take the case of that
index and return a curve of that variant; neither runs past the end of its switch. -/
theorem random_factories_reach_a_case [Ring α] (rand : Nat → Nat) (calls : Nat) :
    (rand calls % 3 = 0 ∨ rand calls % 3 = 1 ∨ rand calls % 3 = 2) ∧
    (∃ c n, make_random_curve (α := α) rand calls = .ok (c, n) ∧
      ((rand calls % 3 = 0 ∧ ∃ R L, c = .circle R L) ∨
       (rand calls % 3 = 1 ∧ ∃ Rx Ry L, c = .ellipse Rx Ry L) ∨
       (rand calls % 3 = 2 ∧ ∃ R h L, c = .helix R h L))) ∧
    (∃ c n, make_random_curve_with_random_linear_operator (α := α) rand calls = .ok (c, n) ∧
      ((rand calls % 3 = 0 ∧ ∃ R L, c = .circle R L) ∨
       (rand calls % 3 = 1 ∧ ∃ Rx Ry L, c = .ellipse Rx Ry L) ∨
       (rand calls % 3 = 2 ∧ ∃ R h L, c = .helix R h L))) ∧
    make_random_curve (α := α) rand calls ≠ .error .no_return ∧
    make_random_curve_with_random_linear_operator (α := α) rand calls ≠
      .error .no_return := by
  have h3 := Nat.mod_lt (rand calls) (by decide : 0 < 3)
  have hidx : rand calls % 3 = 0 ∨ rand calls % 3 = 1 ∨ rand calls % 3 = 2 := by omega
  have h1 : ∃ c n, make_random_curve (α := α) rand calls = .ok (c, n) ∧
      ((rand calls % 3 = 0 ∧ ∃ R L, c = .circle R L) ∨
       (rand calls % 3 = 1 ∧ ∃ Rx Ry L, c = .ellipse Rx Ry L) ∨
       (rand calls % 3 = 2 ∧ ∃ R h L, c = .helix R h L)) := by
    obtain ⟨L, hL, -⟩ := linear_operator_or_default_ok (α := α) none
    unfold make_random_curve
    generalize rand calls % 3 = k at h3
    interval_cases k
    · refine ⟨.circle (RAND_GEN rand (calls + 1) : α) L, calls + 2, ?_, Or.inl ⟨rfl, _, _, rfl⟩⟩
      simp [circle.ctor, hL, bind, Except.bind, pure, Except.pure]
    · refine ⟨.ellipse (RAND_GEN rand (calls + 1) : α) (RAND_GEN rand (calls + 2) : α) L,
        calls + 3, ?_, Or.inr (Or.inl ⟨rfl, _, _, _, rfl⟩)⟩
      simp [ellipse.ctor, hL, bind, Except.bind, pure, Except.pure]
    · refine ⟨.helix (RAND_GEN rand (calls + 1) : α) (RAND_GEN rand (calls + 2) : α) L,
        calls + 3, ?_, Or.inr (Or.inr ⟨rfl, _, _, _, rfl⟩)⟩
      simp [helix.ctor, hL, bind, Except.bind, pure, Except.pure]
  have h2 : ∃ c n,
      make_random_curve_with_random_linear_operator (α := α) rand calls = .ok (c, n) ∧
      ((rand calls % 3 = 0 ∧ ∃ R L, c = .circle R L) ∨
       (rand calls % 3 = 1 ∧ ∃ Rx Ry L, c = .ellipse Rx Ry L) ∨
       (rand calls % 3 = 2 ∧ ∃ R h L, c = .helix R h L)) := by
    obtain ⟨m, hm, -⟩ := random_linear_operator_ok (α := α) rand (calls + 1)
    unfold make_random_curve_with_random_linear_operator
    rw [hm]
    simp only [bind, Except.bind]
    generalize rand calls % 3 = k at h3
    interval_cases k
    · refine ⟨.circle (RAND_GEN rand (calls + 1 + 9) : α) m, calls + 1 + 9 + 1, ?_,
        Or.inl ⟨rfl, _, _, rfl⟩⟩
      simp [circle.ctor, linear_operator_or_default, bind, Except.bind, pure, Except.pure]
    · refine ⟨.ellipse (RAND_GEN rand (calls + 1 + 9) : α)
        (RAND_GEN rand (calls + 1 + 9 + 1) : α) m, calls + 1 + 9 + 2, ?_,
        Or.inr (Or.inl ⟨rfl, _, _, _, rfl⟩)⟩
      simp [ellipse.ctor, linear_operator_or_default, bind, Except.bind, pure, Except.pure]
    · refine ⟨.helix (RAND_GEN rand (calls + 1 + 9) : α)
        (RAND_GEN rand (calls + 1 + 9 + 1) : α) m, calls + 1 + 9 + 2, ?_,
        Or.inr (Or.inr ⟨rfl, _, _, _, rfl⟩)⟩
      simp [helix.ctor, linear_operator_or_default, bind, Except.bind, pure, Except.pure]
  refine ⟨hidx, h1, h2, ?_, ?_⟩
  · obtain ⟨c, n, hc, -⟩ := h1
    rw [hc]
    intro h
    cases h
  · obtain ⟨c, n, hc, -⟩ := h2
    rw [hc]
    intro h
    cases h

end curve_builder

end curves
